import Mathlib

/-!
# Verification of the repo_dagger dependency-graph tool

This file gives a shallow embedding, in Lean 4, of the core of the
`repo_dagger` program (Go sources: `main.go`, `file_visitor.go`, the
python module resolver, and the config model), and proves properties of
that embedding.

Modelling conventions, used throughout:

* All paths handled by the program are clean, relative, `/`-separated
  paths underneath the configured `base_dir` (the program accesses the
  filesystem exclusively through `os.DirFS(base_dir)` /
  `filepath.Join(base_dir, ...)`).  We therefore model the filesystem as
  the tree rooted at `base_dir` and represent a path by its list of
  `/`-separated components (`RPath := List String`); `filepath.Dir` is
  `List.dropLast` (with `[]` playing the role of `"."`), `filepath.Join`
  of a directory and a relative path is list append, and the dotted →
  slashed module-name conversion keeps the component list.  Paths are
  converted back to strings (`String.intercalate "/"`) at the points
  where the Go code sorts or stores them.
* The filesystem is a `RepoFS` value: a list of (regular) file paths, a
  list of directory paths, and a content function.  `os.Stat` succeeds
  on members of either list; `IsDir` holds exactly on the directory
  list.  The *order* of the two lists models the filesystem enumeration
  order seen by the glob scanner.
* The generic glob matcher (`doublestar`, an external dependency of the
  repository, out of scope per the specification and treated as the
  capability "match files against an extended glob pattern supporting
  `**`") is modelled by `matchGlob`, implementing the pattern subset the
  tool's configs use: literal components, `*` wildcards inside one
  component, and the `**` globstar matching zero or more components.
  `doublestar.Glob(os.DirFS(dir), pat, WithFilesOnly, ...)` is modelled
  by filtering the (files-only) file list of the `RepoFS`.
* The Go `regexp` engine is likewise external; user-supplied
  `regex_rules` patterns are evaluated through an uninterpreted
  function field `RepoFS.regexFindAll` (pattern → text → list of match
  groups).  The two import-scanning regular expressions that *are*
  authored in the repository are modelled concretely
  (`pythonImportSimpleMatches`, `pythonImportFromMatches`) for the
  single-line import statements exercised here.
* `log.Fatal*` / `log.Panicf` / returned Go `error`s are all modelled as
  `Except.error`; machine integers are `Nat` with explicit `% 256`
  where bytes matter.
-/

deriving instance DecidableEq for Except

/-! ## String primitives

The Go code manipulates paths and module names through `strings.Split`,
`strings.HasPrefix`, `strings.ReplaceAll`, string concatenation and
native string comparison — all Go standard library.  They are modelled
here by structurally recursive functions on the underlying character
lists (so that every theorem about a concrete run can be checked by
evaluation); on the ASCII strings in scope, character-wise order agrees
with Go's byte-wise string order. -/

/-- Split a character list on a separator character (`strings.Split`
with a one-character separator; the result always has one more part
than there are separators, and splitting the empty string yields one
empty part). -/
def chSplit (sep : Char) : List Char → List (List Char)
  | [] => [[]]
  | c :: rest =>
    if c == sep then [] :: chSplit sep rest
    else
      match chSplit sep rest with
      | [] => [[c]]
      | h :: t => (c :: h) :: t

/-- `strings.Split` on a one-character separator. -/
def strSplitOn (sep : Char) (s : String) : List String :=
  (chSplit sep s.data).map String.mk

/-- Character-list prefix test. -/
def chPrefix : List Char → List Char → Bool
  | [], _ => true
  | _ :: _, [] => false
  | p :: ps, c :: cs => p == c && chPrefix ps cs

/-- `strings.HasPrefix s pre`. -/
def strHasPrefix (s pre : String) : Bool :=
  chPrefix pre.data s.data

/-- Join character lists with a separator (`strings.Join`). -/
def chJoin (sep : List Char) : List (List Char) → List Char
  | [] => []
  | [x] => x
  | x :: y :: t => x ++ sep ++ chJoin sep (y :: t)

/-- `strings.Join l sep` / `String.intercalate`. -/
def strJoin (sep : String) (l : List String) : String :=
  String.mk (chJoin sep.data (l.map String.data))

/-- One fuel-indexed pass of `strings.ReplaceAll`: replace each
leftmost, non-overlapping occurrence of `pat`.  Each step consumes at
least one character, so fuel `s.length` completes the scan; an empty
pattern is left alone (the substitution patterns `$0`, `$1`, … are
never empty). -/
def chReplaceF (pat rep : List Char) : Nat → List Char → List Char
  | _, [] => []
  | 0, s => s
  | fuel + 1, c :: rest =>
    if pat ≠ [] ∧ chPrefix pat (c :: rest) = true then
      rep ++ chReplaceF pat rep fuel ((c :: rest).drop pat.length)
    else
      c :: chReplaceF pat rep fuel rest

/-- `strings.ReplaceAll s pat rep`. -/
def strReplace (s pat rep : String) : String :=
  String.mk (chReplaceF pat.data rep.data s.data.length s.data)

/-- Character-list lexicographic comparison (`≤`), matching Go's string
order on the ASCII data in scope. -/
def chLe : List Char → List Char → Bool
  | [], _ => true
  | _ :: _, [] => false
  | a :: as, b :: bs => if a < b then true else if a == b then chLe as bs else false

/-- Go string comparison `a <= b`. -/
def strLe (a b : String) : Bool :=
  chLe a.data b.data

/-- `strLe` as a relation, for the sorting lemmas. -/
def strLeRel (a b : String) : Prop := strLe a b = true

instance : DecidableRel strLeRel := fun a b => by
  unfold strLeRel; infer_instance

/-- A clean relative path below `base_dir`, as its `/`-separated components. -/
abbrev RPath : Type := List String

/-- Render a path back to the string form the Go code stores and sorts. -/
def RPath.render (p : RPath) : String := strJoin "/" p

/-- `file_visitor.go`: the `Actions` bundle of a rule
(`RuleActions` struct; `StringOrStringArr` fields are already
normalized to plain string lists by the YAML loader). -/
structure RuleActions where
  visit : List String
  visit_siblings : List String
  visit_grand_siblings : List String
  visit_imported_python_modules : Bool
  visit_python_all_submodules_for : List String
  exclude : List String
deriving DecidableEq, Repr

/-- An Actions bundle with everything switched off. -/
def RuleActions.none : RuleActions :=
  ⟨[], [], [], false, [], []⟩

/-- A `PathRule`: top-level actions plus regex sub-rules.  The Go
`map[string]RuleActions` has unordered iteration; we represent it as an
association list and quantify over its permutations where iteration
order matters. -/
structure PathRule where
  actions : RuleActions
  regex_rules : List (String × RuleActions)
deriving DecidableEq, Repr

/-- The configuration schema (`Config` struct), after YAML decoding.
`base_dir` is dropped because the filesystem model is already rooted
there; the unordered `path_rules` map is an association list. -/
structure Config where
  inputs : List String
  global_deps : List String
  global_exclude : List String
  root_python_packages : List String
  path_rules : List (String × PathRule)

/-- The filesystem (and external regexp engine) seen through
`os.DirFS(base_dir)`.  `files`/`dirs` enumerate the regular files and
directories (list order = enumeration order); `content` is what
`os.ReadFile` returns; `regexFindAll` models
`regexp.FindAllStringSubmatch` for the user-authored `regex_rules`
patterns (pattern → file text → list of submatch groups). -/
structure RepoFS where
  files : List RPath
  dirs : List RPath
  content : RPath → Option String
  regexFindAll : String → String → List (List String)

/-- `os.Stat(filepath.Join(base_dir, p))` succeeding. -/
def RepoFS.statSucceeds (fs : RepoFS) (p : RPath) : Bool :=
  fs.files.contains p || fs.dirs.contains p

/-- `os.Stat(...).IsDir()` (together with the stat succeeding). -/
def RepoFS.statIsDir (fs : RepoFS) (p : RPath) : Bool :=
  fs.dirs.contains p

/-! ## Sorting and de-duplication (`slices.Sort` + `slices.Compact`)

Go sorts path strings in ascending byte order; for the ASCII paths in
scope this is the character order of `String`'s linear order.
`slices.Compact` removes *adjacent* duplicates, which on a sorted list
removes all duplicates. -/

/-- `slices.Compact`: collapse runs of adjacent equal elements. -/
def goCompact {α : Type} [DecidableEq α] : List α → List α
  | [] => []
  | [a] => [a]
  | a :: b :: rest => if a = b then goCompact (b :: rest) else a :: goCompact (b :: rest)

/-- `slices.Sort` on strings. -/
def goSort (l : List String) : List String :=
  List.insertionSort strLeRel l

/-- `slices.Sort` followed by `slices.Compact`, the canonicalization the
program applies to every stored sequence. -/
def sortDedup (l : List String) : List String :=
  goCompact (goSort l)

/-! ## The glob matcher capability

Models the `doublestar` pattern subset used by the tool's
configurations: a pattern is split on `/`; a `**` component matches any
(possibly empty) run of path components; any other component matches a
single path component, with `*` matching any (possibly empty) run of
characters inside that component. -/

/-- Match one pattern component (with `*` wildcards) against one path
component, as character lists.  A `*` matches any (possibly empty) run
of characters: it succeeds iff the rest of the pattern matches some
suffix of the remaining component. -/
def matchSegChars : List Char → List Char → Bool
  | [], cs => cs.isEmpty
  | '*' :: ps, cs => cs.tails.any fun cs' => matchSegChars ps cs'
  | _ :: _, [] => false
  | p :: ps, c :: cs => p == c && matchSegChars ps cs

/-- Match one pattern component against one path component. -/
def matchSeg (pat comp : String) : Bool :=
  matchSegChars pat.data comp.data

/-- Match a `/`-split glob pattern against a path's components.  A `**`
component matches any (possibly empty) run of path components: it
succeeds iff the rest of the pattern matches some suffix of the
remaining components. -/
def matchGlob : List String → RPath → Bool
  | [], cs => cs.isEmpty
  | "**" :: ps, cs => cs.tails.any fun cs' => matchGlob ps cs'
  | _ :: _, [] => false
  | p :: ps, c :: cs => matchSeg p c && matchGlob ps cs

/-- `doublestar.Match(pattern, name)`: whole-path match of a pattern
string against a path. -/
def globMatch (pattern : String) (p : RPath) : Bool :=
  matchGlob (strSplitOn '/' pattern) p

/-- `doublestar.Glob(os.DirFS(filepath.Join(base_dir, dir)), pattern,
WithFilesOnly, WithFailOnIOErrors)`: enumerate the regular files under
`dir`, returning their paths relative to `dir` (in filesystem
enumeration order).  The model has no I/O errors. -/
def globFiles (fs : RepoFS) (dir : RPath) (pattern : List String) : List RPath :=
  fs.files.filterMap fun f =>
    if dir.isPrefixOf f then
      let r := f.drop dir.length
      if matchGlob pattern r then some r else none
    else none

/-! ## The Python module resolver

Translation of `Resolve` (python module resolver, cumulative-candidate
variant: the five filesystem forms are probed *independently* and all
contributing files accumulate; the parent module is visited iff at
least one form existed).

Representation notes: the dotted module name is carried as its list of
dot-separated components `parts` (the Go code's `module` string is
`String.intercalate "." parts` and its `dir_path` is the same component
list read as a path); `strings.LastIndex(module, ".") != -1` is
`2 ≤ parts.length` and dropping the last dotted component is
`parts.dropLast`.  The memoization cache (`res.cache`, a Go map) is an
association list keyed by the component list, threaded in state-passing
style; `log.Panicf` is `Except.error`. -/

/-- The resolver memoization cache: module components ↦ resolved paths. -/
abbrev ResolverCache : Type := List (RPath × List RPath)

/-- Go map lookup (`res.cache[module]`, `nil` when absent). -/
def cacheLookup (c : ResolverCache) (k : RPath) : Option (List RPath) :=
  (c.find? (fun e => e.1 == k)).map (·.2)

/-- The root-package filter: `module` equals, or is a dotted descendant
of, some entry of `root_python_packages`. -/
def pyModAllowed (cfg : Config) (module : String) : Bool :=
  cfg.root_python_packages.any fun r =>
    strHasPrefix module (r ++ ".") || module == r

/-- Append a filename extension to the last component of a path
(`dir_path + ".py"` at the string level). -/
def appendExt : RPath → String → RPath
  | [], ext => [ext]
  | [a], ext => [a ++ ext]
  | a :: b :: rest, ext => a :: appendExt (b :: rest) ext

/-- The files contributed by the five independently probed candidate
forms, in probe order: `module/__init__.py`, (bare directory: no file),
`module.py`, `module.pyx`, `module.pyi`, `module.c`. -/
def resolveOwnPaths (fs : RepoFS) (parts : RPath) : List RPath :=
  (if fs.statSucceeds (parts ++ ["__init__.py"]) then [parts ++ ["__init__.py"]] else [])
    ++ (if fs.statSucceeds (appendExt parts ".py") then [appendExt parts ".py"] else [])
    ++ (if fs.statSucceeds (appendExt parts ".pyx") then [appendExt parts ".pyx"] else [])
    ++ (if fs.statSucceeds (appendExt parts ".pyi") then [appendExt parts ".pyi"] else [])
    ++ (if fs.statSucceeds (appendExt parts ".c") then [appendExt parts ".c"] else [])

/-- The `visit_parent` flag: did at least one of the candidate forms
exist (including the fileless namespace-package directory form)? -/
def resolveFoundAny (fs : RepoFS) (parts : RPath) : Bool :=
  fs.statSucceeds (parts ++ ["__init__.py"]) || fs.statIsDir parts
    || fs.statSucceeds (appendExt parts ".py") || fs.statSucceeds (appendExt parts ".pyx")
    || fs.statSucceeds (appendExt parts ".pyi") || fs.statSucceeds (appendExt parts ".c")

/-- `Resolve(module, config, base_dir)` on the module's dotted
components, memoized through the threaded cache.  The recursion into
the parent module strictly shortens the component list, so it is
written against a structural fuel parameter (any fuel above
`parts.length` computes the function; see `pythonResolve_eq`); the
fuel-exhausted branch is unreachable from `pythonResolve`. -/
def pythonResolveF (cfg : Config) (fs : RepoFS) :
    Nat → RPath → ResolverCache → Except String (List RPath × ResolverCache)
  | 0, _, _ => .error "resolver fuel exhausted"
  | fuel + 1, parts, cache =>
    match cacheLookup cache parts with
    | some v => .ok (v, cache)
    | none =>
      let module := strJoin "." parts
      if !pyModAllowed cfg module then
        .ok ([], (parts, []) :: cache)
      else if strHasPrefix module "." then
        .error ("Relative imports are not supported: " ++ module)
      else
        let own := resolveOwnPaths fs parts
        if 2 ≤ parts.length ∧ resolveFoundAny fs parts = true then
          match pythonResolveF cfg fs fuel parts.dropLast cache with
          | .error e => .error e
          | .ok (sub, cache₁) =>
            let out := own ++ sub
            .ok (out, (parts, out) :: cache₁)
        else
          .ok (own, (parts, own) :: cache)

/-- `Resolve(module, config, base_dir)` on the module's dotted components. -/
def pythonResolve (cfg : Config) (fs : RepoFS) (parts : RPath) (cache : ResolverCache) :
    Except String (List RPath × ResolverCache) :=
  pythonResolveF cfg fs (parts.length + 1) parts cache

/-- `Resolve` on a dotted module-name string. -/
def pythonResolveModule (cfg : Config) (fs : RepoFS) (module : String)
    (cache : ResolverCache) : Except String (List RPath × ResolverCache) :=
  pythonResolve cfg fs (strSplitOn '.' module) cache

/-- The fuel parameter of `pythonResolveF` is irrelevant once it exceeds
the module's component count: an artefact of the embedding, not of the
algorithm. -/
theorem pythonResolveF_irrel (cfg : Config) (fs : RepoFS) :
    ∀ (fuel₁ fuel₂ : Nat) (parts : RPath) (cache : ResolverCache),
      parts.length < fuel₁ → parts.length < fuel₂ →
      pythonResolveF cfg fs fuel₁ parts cache = pythonResolveF cfg fs fuel₂ parts cache := by
  intro fuel₁
  induction fuel₁ with
  | zero => intro fuel₂ parts cache h₁ _; omega
  | succ n ih =>
    intro fuel₂ parts cache h₁ h₂
    match fuel₂, h₂ with
    | m + 1, h₂ =>
      simp only [pythonResolveF]
      rcases hn : cacheLookup cache parts with _ | v
      · simp only []
        by_cases hrec : 2 ≤ parts.length ∧ resolveFoundAny fs parts = true
        · have hd₁ : parts.dropLast.length < n := by
            simp only [List.length_dropLast]; omega
          have hd₂ : parts.dropLast.length < m := by
            simp only [List.length_dropLast]; omega
          rw [ih m parts.dropLast cache hd₁ hd₂]
        · simp [if_neg hrec]
      · rfl

/-- Any fuel above the module's component count computes `pythonResolve`. -/
theorem pythonResolveF_eq_pythonResolve (cfg : Config) (fs : RepoFS)
    (fuel : Nat) (parts : RPath) (cache : ResolverCache) (h : parts.length < fuel) :
    pythonResolveF cfg fs fuel parts cache = pythonResolve cfg fs parts cache :=
  pythonResolveF_irrel cfg fs fuel (parts.length + 1) parts cache h (Nat.lt_succ_self _)

/-- The recursion equation `pythonResolve` satisfies: literally the body
of the Go `Resolve`, with the parent-module recursion appearing as
`pythonResolve` itself. -/
theorem pythonResolve_eq (cfg : Config) (fs : RepoFS) (parts : RPath)
    (cache : ResolverCache) :
    pythonResolve cfg fs parts cache =
      match cacheLookup cache parts with
      | some v => .ok (v, cache)
      | none =>
        let module := strJoin "." parts
        if !pyModAllowed cfg module then
          .ok ([], (parts, []) :: cache)
        else if strHasPrefix module "." then
          .error ("Relative imports are not supported: " ++ module)
        else
          let own := resolveOwnPaths fs parts
          if 2 ≤ parts.length ∧ resolveFoundAny fs parts = true then
            match pythonResolve cfg fs parts.dropLast cache with
            | .error e => .error e
            | .ok (sub, cache₁) =>
              let out := own ++ sub
              .ok (out, (parts, out) :: cache₁)
          else
            .ok (own, (parts, own) :: cache) := by
  show pythonResolveF cfg fs (parts.length + 1) parts cache = _
  simp only [pythonResolveF]
  rcases hn : cacheLookup cache parts with _ | v
  · simp only []
    by_cases hrec : 2 ≤ parts.length ∧ resolveFoundAny fs parts = true
    · have hlt : parts.dropLast.length < parts.length := by
        simp only [List.length_dropLast]; omega
      rw [pythonResolveF_eq_pythonResolve cfg fs parts.length parts.dropLast cache hlt]
    · simp [if_neg hrec]
  · rfl

/-! ## Import scanning

`file_visitor.go` extracts python imports with three regular
expressions authored in the repository:

* simple form: a (possibly space-indented) line
  `import <run of non-space characters>`;
* from form: a line `from <module> import <rest>` where `<rest>` is
  either a parenthesized `( ... )` group or the remainder of the line;
* identifier tokens `[A-Za-z_][A-Za-z0-9_]*` scanned out of the second
  group of the from form.

Both line-anchored patterns are modelled per line of the file text
(`(?m:^ ...)` anchors each match at a line start, and neither capture
can cross a line break in the single-line import statements in scope). -/

/-- The capture of `python_import_parser_simple` on one line, when the
line matches: drop the leading run of spaces, require the literal
`import `, and capture the following maximal nonempty run of non-space
characters. -/
def parseSimpleImportLine (line : List Char) : Option (List Char) :=
  let l := line.dropWhile (· == ' ')
  if chPrefix "import ".data l then
    let cap := (l.drop 7).takeWhile (fun c => !(c == ' '))
    if cap.isEmpty then none else some cap
  else none

/-- The two captures of `python_import_parser_from` on one line, when
the line matches: `from <group1> import <group2>`, `<group1>` a maximal
nonempty run of non-space characters, `<group2>` a parenthesized group
when one opens and closes on the line (the first regex alternative),
otherwise the nonempty remainder of the line. -/
def parseFromImportLine (line : List Char) : Option (List Char × List Char) :=
  let l := line.dropWhile (· == ' ')
  if chPrefix "from ".data l then
    let rest := l.drop 5
    let modname := rest.takeWhile (fun c => !(c == ' '))
    if modname.isEmpty then none
    else
      let rest₂ := rest.drop modname.length
      if chPrefix " import ".data rest₂ then
        let rest₃ := rest₂.drop 8
        if rest₃.isEmpty then none
        else
          match rest₃ with
          | '(' :: tl =>
            let inner := tl.takeWhile (fun c => !(c == ')'))
            if !inner.isEmpty && !(tl.drop inner.length).isEmpty then
              some (modname, '(' :: (inner ++ [')']))
            else
              some (modname, rest₃)
          | _ => some (modname, rest₃)
      else none
  else none

/-- First character of `python_import_parser_ident`. -/
def isIdentStart (c : Char) : Bool :=
  ('A' ≤ c && c ≤ 'Z') || ('a' ≤ c && c ≤ 'z') || c == '_'

/-- Continuation character of `python_import_parser_ident`. -/
def isIdentCont (c : Char) : Bool :=
  isIdentStart c || ('0' ≤ c && c ≤ '9')

/-- Scanner state machine for `FindAllStringSubmatch` of
`python_import_parser_ident`: collect the maximal identifier tokens, in
order. -/
def identScan (inTok : Option (List Char)) : List Char → List (List Char)
  | [] =>
    match inTok with
    | some t => [t.reverse]
    | none => []
  | c :: rest =>
    match inTok with
    | some t =>
      if isIdentCont c then identScan (some (c :: t)) rest
      else t.reverse :: identScan none rest
    | none =>
      if isIdentStart c then identScan (some [c]) rest
      else identScan none rest

/-- All identifier tokens of a character list. -/
def chIdents (l : List Char) : List (List Char) :=
  identScan none l

/-- The import-parsing block of `applyActions` (lines building
`pyimports` and `pyimports_idents`): returns the flat sequence of every
fully-qualified dotted module name seen, and the locally-bound
identifier map (as an association list in which the most recent binding
shadows earlier ones, matching Go map assignment). -/
def pythonParseImports (content : String) : List String × List (String × String) :=
  let ls := chSplit '\n' content.data
  let simples := ls.filterMap parseSimpleImportLine
  let froms := ls.filterMap parseFromImportLine
  let st₁ := simples.foldl
    (fun (st : List String × List (String × String)) cap =>
      (st.1 ++ [String.mk cap], (String.mk cap, String.mk cap) :: st.2))
    ([], [])
  froms.foldl
    (fun (st : List String × List (String × String)) m =>
      let base := String.mk m.1
      (chIdents m.2).foldl
        (fun (st : List String × List (String × String)) idc =>
          let idn := String.mk idc
          let full := base ++ "." ++ idn
          (st.1 ++ [full], (idn, full) :: st.2))
        (st.1 ++ [base], st.2))
    st₁

/-- Go map lookup in the locally-bound identifier map. -/
def identLookup (ids : List (String × String)) (k : String) : Option String :=
  (ids.find? (fun e => e.1 == k)).map (·.2)

/-! ## Template substitution (`RegexResult.applyOnTemplate`) -/

/-- Substitute the capture groups of a regex match into a template:
`$0`, `$1`, … are replaced by the corresponding group texts, in group
order.  The top-level (non-regex) actions pass an empty capture list,
leaving templates untouched. -/
def applyOnTemplate (regex_result : List String) (template : String) : String :=
  regex_result.enum.foldl
    (fun out p => strReplace out ("$" ++ toString p.1) p.2) template

/-- `RegexResult.applyOnTemplates`. -/
def applyOnTemplates (regex_result : List String) (templates : List String) : List String :=
  templates.map (applyOnTemplate regex_result)

/-! ## The relation engine (`applyActions` / `visitFile`) -/

/-- `checkExcludePatterns`: does the file match one of the exclusion
patterns?  (The glob-matcher capability is total, so the Go error
return of `doublestar.Match` cannot fire in the model.) -/
def checkExcludePatterns (exclude_patterns : List String) (file : RPath) : Bool :=
  exclude_patterns.any fun pat => globMatch pat file

/-- The nonempty prefixes of a path, in increasing length order
(structural helper for the grand-sibling walk). -/
def prefixesInc : RPath → List RPath
  | [] => []
  | c :: rest => [c] :: (prefixesInc rest).map (fun p => c :: p)

/-- The directories visited by the grand-sibling walk of
`applyActions`: starting at the directory itself and taking
`filepath.Dir` until — and excluding — the base root (`path_iter`
values of the loop `for path_iter != "."`). -/
def ancestorChain (d : RPath) : List RPath :=
  (prefixesInc d).reverse

/-- `os.ReadFile` through the lazily-read file text buffer: reuse the
already-read text, otherwise read it now (a missing file is the fatal
read error of the Go code). -/
def readFileData (fs : RepoFS) (file : RPath) : Option String → Except String String
  | some d => .ok d
  | none =>
    match fs.content file with
    | some d => .ok d
    | none => .error "error while reading python file"

/-- Resolve one `visit_python_all_submodules_for` target to a fully
qualified module name: already fully qualified when it is, or starts
with, a root python package; otherwise looked up among the locally
bound import identifiers, fatally when absent. -/
def submoduleTarget (cfg : Config) (idents : List (String × String)) (mod_name : String) :
    Except String String :=
  let found_in_root_pkg := cfg.root_python_packages.any fun r =>
    strHasPrefix mod_name (r ++ ".") || mod_name == r
  if found_in_root_pkg then .ok mod_name
  else
    match identLookup idents mod_name with
    | some full => .ok full
    | none => .error ("module ident not found: " ++ mod_name)

/-- One iteration of the `visit_python_all_submodules_for` loop:
resolve the target and glob `<module dir>/**/*.py` under the base
root. -/
def submoduleStep (cfg : Config) (fs : RepoFS) (idents : List (String × String))
    (acc : List RPath) (mod_name : String) : Except String (List RPath) :=
  match submoduleTarget cfg idents mod_name with
  | .error e => .error e
  | .ok full_mod_name =>
    .ok (acc ++ globFiles fs [] (strSplitOn '.' full_mod_name ++ ["**", "*.py"]))

/-- One iteration of the import-resolution loop: resolve the collected
module through the memoized resolver, appending its paths. -/
def resolveImportsStep (cfg : Config) (fs : RepoFS)
    (st : List RPath × ResolverCache) (module : String) :
    Except String (List RPath × ResolverCache) :=
  match pythonResolveModule cfg fs module st.2 with
  | .error e => .error e
  | .ok (paths, c') => .ok (st.1 ++ paths, c')

/-- `applyActions`: apply one Actions bundle for `file` under the given
capture set, returning the newly recorded relations (the Go code
appends them to `*file_relations`), the possibly-now-read file text
(`*file_data`), and the updated resolver cache.  Action order is that
of the Go body: `visit`, `visit_siblings`, `visit_grand_siblings`, then
the python-import block (read file text; parse imports; expand
`visit_python_all_submodules_for`; resolve every collected module).
Error messages are compressed to stable prefixes of the Go
`fmt.Errorf` texts. -/
def applyActions (cfg : Config) (fs : RepoFS) (actions : RuleActions) (file : RPath)
    (regex_result : List String) (file_data : Option String) (cache : ResolverCache) :
    Except String (List RPath × Option String × ResolverCache) :=
  let visitRels :=
    (applyOnTemplates regex_result actions.visit).flatMap fun pat =>
      globFiles fs [] (strSplitOn '/' pat)
  let path_iter := file.dropLast
  let sibRels :=
    (applyOnTemplates regex_result actions.visit_siblings).flatMap fun pat =>
      (globFiles fs path_iter (strSplitOn '/' pat)).map fun r => path_iter ++ r
  let grandRels :=
    (ancestorChain path_iter).flatMap fun d =>
      (applyOnTemplates regex_result actions.visit_grand_siblings).flatMap fun pat =>
        (globFiles fs d (strSplitOn '/' pat)).map fun r => d ++ r
  let base := visitRels ++ sibRels ++ grandRels
  if actions.visit_imported_python_modules
      || !actions.visit_python_all_submodules_for.isEmpty then
    match readFileData fs file file_data with
    | .error e => .error e
    | .ok d =>
      let parsed := pythonParseImports d
      match
        (applyOnTemplates regex_result actions.visit_python_all_submodules_for).foldlM
          (submoduleStep cfg fs parsed.2) []
      with
      | .error e => .error e
      | .ok subRels =>
        match parsed.1.foldlM (resolveImportsStep cfg fs) ([], cache) with
        | .error e => .error e
        | .ok (importRels, cache') =>
          .ok (base ++ subRels ++ importRels, some d, cache')
  else
    .ok (base, file_data, cache)

/-- One iteration of the regex-match loop: apply the regex rule's
actions with the match's capture groups, appending the produced
relations. -/
def regexMatchStep (cfg : Config) (fs : RepoFS) (regex_actions : RuleActions)
    (file : RPath) (st : List RPath × Option String × ResolverCache)
    (regex_match : List String) :
    Except String (List RPath × Option String × ResolverCache) :=
  match applyActions cfg fs regex_actions file regex_match st.2.1 st.2.2 with
  | .error e => .error e
  | .ok (rels, fd, c') => .ok (st.1 ++ rels, fd, c')

/-- The regex-sub-rule loop of `visitFile` for one matched path rule:
for each regex rule (in iteration order), unless the file matches the
rule's own `exclude` patterns, read the file text if not already read,
find all regex matches, and apply the rule's actions once per match
with the match's capture groups. -/
def visitRegexRules (cfg : Config) (fs : RepoFS) (file : RPath) :
    List (String × RuleActions) → Option String → ResolverCache → List RPath →
    Except String (List RPath × Option String × ResolverCache)
  | [], file_data, cache, acc => .ok (acc, file_data, cache)
  | (regex_pattern, regex_actions) :: rest, file_data, cache, acc =>
    if checkExcludePatterns regex_actions.exclude file then
      visitRegexRules cfg fs file rest file_data cache acc
    else
      match readFileData fs file file_data with
      | .error e => .error e
      | .ok d =>
        let regex_matches := fs.regexFindAll regex_pattern d
        match
          regex_matches.foldlM (regexMatchStep cfg fs regex_actions file) (acc, some d, cache)
        with
        | .error e => .error e
        | .ok (acc', fd', cache') => visitRegexRules cfg fs file rest fd' cache' acc'

/-- The path-rule loop of `visitFile`: every rule whose pattern matches
the file applies, first its top-level actions with an empty capture
set, then its regex sub-rules.  The file text buffer (`file_data`) is
scoped per path rule, exactly as in the Go code (`var file_data
*string` is declared inside the rule loop). -/
def visitPathRules (cfg : Config) (fs : RepoFS) (file : RPath) :
    List (String × PathRule) → ResolverCache → List RPath →
    Except String (List RPath × ResolverCache)
  | [], cache, acc => .ok (acc, cache)
  | (rule_pattern, path_rule) :: rest, cache, acc =>
    if globMatch rule_pattern file then
      match applyActions cfg fs path_rule.actions file [] none cache with
      | .error e => .error e
      | .ok (rels, fd, cache₁) =>
        match visitRegexRules cfg fs file path_rule.regex_rules fd cache₁ (acc ++ rels) with
        | .error e => .error e
        | .ok (acc', _, cache₂) => visitPathRules cfg fs file rest cache₂ acc'
    else
      visitPathRules cfg fs file rest cache acc

/-- `visitFile`: the relation engine for one file.  A globally excluded
file contributes no relations at all; otherwise every matching path
rule applies. -/
def visitFile (cfg : Config) (fs : RepoFS) (file : RPath) (cache : ResolverCache) :
    Except String (List RPath × ResolverCache) :=
  if checkExcludePatterns cfg.global_exclude file then
    .ok ([], cache)
  else
    visitPathRules cfg fs file cfg.path_rules cache []

/-! ## The graph builder (`VisitRecursively`) -/

/-- One frontier pass of `VisitRecursively`: visit each not-yet-visited
frontier file, seed its relation list with `global_deps`, run the
relation engine, sort and de-duplicate, store the result in the
relation map, and accumulate the stored relations into the
next-frontier buffer. -/
def visitWave (cfg : Config) (fs : RepoFS) :
    List String → List String → List (String × List String) → List String →
    ResolverCache →
    Except String (List String × List (String × List String) × List String × ResolverCache)
  | [], visited, relMap, related, cache => .ok (visited, relMap, related, cache)
  | f :: rest, visited, relMap, related, cache =>
    if visited.contains f then
      visitWave cfg fs rest visited relMap related cache
    else
      match visitFile cfg fs (strSplitOn '/' f) cache with
      | .error e => .error e
      | .ok (rels, cache') =>
        let stored := sortDedup (cfg.global_deps ++ rels.map RPath.render)
        visitWave cfg fs rest (f :: visited) (relMap ++ [(f, stored)])
          (related ++ stored) cache'

/-- `VisitRecursively`, fuel-indexed over the waves: keep expanding the
frontier until a wave's accumulated relations are empty (`related_files
== 0` ends the loop).  `none` is fuel exhaustion, an artefact of the
embedding (the termination theorem shows sufficient fuel always
exists). -/
def VisitRecursivelyF (cfg : Config) (fs : RepoFS) :
    Nat → List String → List String → List (String × List String) → ResolverCache →
    Option (Except String (List (String × List String)))
  | 0, _, _, _, _ => none
  | fuel + 1, frontier, visited, relMap, cache =>
    match visitWave cfg fs frontier visited relMap [] cache with
    | .error e => some (.error e)
    | .ok (visited', relMap', related, cache') =>
      if related.isEmpty then some (.ok relMap')
      else VisitRecursivelyF cfg fs fuel (sortDedup related) visited' relMap' cache'

/-! ## The closure (`BuildFullDepList`, `main.go`) -/

/-- Go map lookup in the relation map (`file_relation_map[file]`,
ranging over `nil` when absent). -/
def relLookup (m : List (String × List String)) (f : String) : List String :=
  ((m.find? (fun e => e.1 == f)).map (·.2)).getD []

/-- The recursive closure walk of `BuildFullDepList` (`buildDepList`):
skip already-visited files, otherwise mark the file visited, recurse
into all its direct relations, then append the file to the output.
Fuel-indexed: every recursive call follows a strictly growing visited
set over a fixed universe, so fuel beyond the universe size computes
the function. -/
def buildDepListF (m : List (String × List String)) :
    Nat → String → List String × List String → List String × List String
  | 0, _, st => st
  | fuel + 1, f, st =>
    if st.1.contains f then st
    else
      let st₂ := (relLookup m f).foldl
        (fun st' r => buildDepListF m fuel r st') (f :: st.1, st.2)
      (st₂.1, st₂.2 ++ [f])

/-- Every file name occurring in the relation map (keys and values),
plus the start file: a finite universe containing everything the
closure walk can touch. -/
def depListUniverse (m : List (String × List String)) (file : String) : List String :=
  file :: m.flatMap fun e => e.1 :: e.2

/-- `BuildFullDepList`: the sorted closure of a file over the relation
map (the Go code sorts and returns `dep_list`; no duplicates can occur,
see `BuildFullDepList_spec`). -/
def BuildFullDepList (m : List (String × List String)) (file : String) : List String :=
  goSort (buildDepListF m ((depListUniverse m file).length + 1) file ([], [])).2

/-! ## main.go fragments: input collection, zero-input exit, digests -/

/-- `doublestar.Glob(os.DirFS(base_dir), input)` as used for input
collection (no `WithFilesOnly`: directories can match too). -/
def globAllEntries (fs : RepoFS) (pattern : List String) : List RPath :=
  (fs.files ++ fs.dirs).filterMap fun f =>
    if matchGlob pattern f then some f else none

/-- Input collection (`main.go`): glob every configured input pattern
under the base root, concatenate, sort and de-duplicate. -/
def collectInputFiles (cfg : Config) (fs : RepoFS) : List String :=
  sortDedup ((cfg.inputs.flatMap fun pat =>
    globAllEntries fs (strSplitOn '/' pat)).map RPath.render)

/-- Outcome of main's input-collection phase.  `fatalExit` models
`log.Fatalln` / `log.Fatalf`: the message is logged and the process
terminates with a non-zero exit status. -/
inductive MainExit : Type
  | fatalExit (msg : String)
  | proceed (input_files : List String)
deriving DecidableEq

/-- `main.go` after input collection: `if len(input_files) == 0 {
log.Fatalln("No input files found. Exiting.") }`. -/
def mainInputPhase (cfg : Config) (fs : RepoFS) : MainExit :=
  let input_files := collectInputFiles cfg fs
  if input_files.isEmpty then MainExit.fatalExit "No input files found. Exiting."
  else MainExit.proceed input_files

/-! ## The dependency digest (`main.go`, hash pipeline)

SHA-256 itself is Go standard library; the embedding keeps it (and the
precomputed per-file content digests) abstract as function parameters
and models exactly what the repository code controls: the sequence of
`hasher.Write` calls and the hex rendering of the accumulator result.
Bytes are `Nat`s (reduced `% 256` where produced). -/

/-- `const ALGORITHM_VERSION uint64 = 1`. -/
def ALGORITHM_VERSION : Nat := 1

/-- `binary.Write(..., binary.LittleEndian, v)`: the `width` bytes of
`v`, least significant first. -/
def leBytes : Nat → Nat → List Nat
  | 0, _ => []
  | w + 1, n => n % 256 :: leBytes w (n / 256)

/-- The bytes of a string (UTF-8; codepoints, identical for the ASCII
paths in scope). -/
def strBytes (s : String) : List Nat :=
  s.data.map Char.toNat

/-- The sequence of `hasher.Write` payloads issued when digesting one
input file (`main.go`): the little-endian algorithm version, the salt,
the config-file hash, the input file's path, then for each file of the
sorted closure its path followed by its content digest. -/
def depHashWrites (hash_salt : String) (config_hash : List Nat) (file_name : String)
    (dep_list : List String) (fileHashes : String → List Nat) : List (List Nat) :=
  let w₀ := [leBytes 8 ALGORITHM_VERSION, strBytes hash_salt, config_hash,
    strBytes file_name]
  dep_list.foldl (fun ws dep => ws ++ [strBytes dep, fileHashes dep]) w₀

/-- One lowercase hex digit. -/
def hexDigit (n : Nat) : Char :=
  if n < 10 then Char.ofNat ('0'.toNat + n) else Char.ofNat ('a'.toNat + (n - 10))

/-- `fmt.Sprintf("%x", bytes)`: lowercase hex of a byte sequence. -/
def hexEncode (bytes : List Nat) : String :=
  String.mk (bytes.flatMap fun b => [hexDigit (b % 256 / 16), hexDigit (b % 16)])

/-- `dep_hashes[file_name] = fmt.Sprintf("%x", hasher.Sum(nil))`, with
the cryptographic accumulator abstracted as `sha` (fed the
concatenation of all written payloads, in write order). -/
def depHashHex (sha : List Nat → List Nat) (hash_salt : String) (config_hash : List Nat)
    (file_name : String) (dep_list : List String) (fileHashes : String → List Nat) :
    String :=
  hexEncode (sha (depHashWrites hash_salt config_hash file_name dep_list fileHashes).flatten)

/-- Modelled from the spec: the digest input order as §4.4 (C5) states
it — "a fixed little-endian algorithm-version constant; the
operator-supplied salt string; the hash of the raw configuration file
bytes; the input file's own path; then, for each file in the sorted
closure, that file's path followed by its precomputed content digest"
— written as one flat list of hash-accumulator inputs. -/
def specDigestWrites (hash_salt : String) (config_hash : List Nat) (file_name : String)
    (dep_list : List String) (fileHashes : String → List Nat) : List (List Nat) :=
  [leBytes 8 ALGORITHM_VERSION, strBytes hash_salt, config_hash, strBytes file_name]
    ++ dep_list.flatMap fun dep => [strBytes dep, fileHashes dep]

/-! ## Concrete scenario instances -/

/-- The pytest path rule of the end-to-end scenario (§8): pattern
`tests/**/test_*.py`, actions `visit_grand_siblings: [conftest.py,
__init__.py]`. -/
def testFileRule : PathRule :=
  ⟨⟨[], [], ["conftest.py", "__init__.py"], false, [], []⟩, []⟩

/-- The generic python rule of the scenario: pattern `**/*.py`, actions
`visit_imported_python_modules: true` and `visit_grand_siblings:
[__init__.py]`. -/
def genericPyRule : PathRule :=
  ⟨⟨[], [], ["__init__.py"], true, [], []⟩, []⟩

/-- The end-to-end scenario configuration: input `tests/**/test_*.py`,
global deps `["poetry.lock"]`, root python package `pkg`, and the two
rules above. -/
def cfgScenario : Config :=
  ⟨["tests/**/test_*.py"], ["poetry.lock"], [], ["pkg"],
   [("tests/**/test_*.py", testFileRule), ("**/*.py", genericPyRule)]⟩

/-- The scenario tree: `tests/test_foo.py` (containing `import
pkg.db`), `pkg/db.py`, `pkg/__init__.py`, a `conftest.py` directly in
the base root, and `poetry.lock`. -/
def fsScenario : RepoFS :=
  ⟨[["tests", "test_foo.py"], ["pkg", "db.py"], ["pkg", "__init__.py"],
    ["conftest.py"], ["poetry.lock"]],
   [["tests"], ["pkg"]],
   fun p => if p = ["tests", "test_foo.py"] then some "import pkg.db\n" else some "",
   fun _ _ => []⟩

/-- The relation map the embedding computes for the scenario. -/
def scenarioRelMap : List (String × List String) :=
  [("tests/test_foo.py", ["pkg/__init__.py", "pkg/db.py", "poetry.lock"]),
   ("pkg/__init__.py", ["pkg/__init__.py", "poetry.lock"]),
   ("pkg/db.py", ["pkg/__init__.py", "poetry.lock"]),
   ("poetry.lock", ["poetry.lock"])]

/-- Resolver scenario (§8, C3): root package `pkg`; `pkg/sub/mod.py`,
`pkg/sub/__init__.py` and `pkg/__init__.py` all exist. -/
def cfgResolver : Config := ⟨[], [], [], ["pkg"], []⟩

/-- Filesystem for the C3 resolver scenario. -/
def fsResolver : RepoFS :=
  ⟨[["pkg", "sub", "mod.py"], ["pkg", "sub", "__init__.py"], ["pkg", "__init__.py"]],
   [["pkg"], ["pkg", "sub"]], fun _ => Option.none, fun _ _ => []⟩

/-- A tree in which two candidate forms of the same module exist
(`pkg/mod.py` and `pkg/mod.pyi`): distinguishes cumulative candidate
probing from first-match probing. -/
def fsResolverBoth : RepoFS :=
  ⟨[["pkg", "__init__.py"], ["pkg", "mod.py"], ["pkg", "mod.pyi"]],
   [["pkg"]], fun _ => Option.none, fun _ _ => []⟩

/-! ## C3 — cumulative, independent candidate probing -/

/-- C3: python module resolution probes its candidate filesystem forms
independently and accumulates every form that exists.  With
`root_python_packages = ["pkg"]` and `pkg/sub/mod.py`,
`pkg/sub/__init__.py`, `pkg/__init__.py` present,
`Resolve("pkg.sub.mod")` returns exactly `{pkg/sub/mod.py,
pkg/sub/__init__.py, pkg/__init__.py}`; and when both `pkg/mod.py` and
`pkg/mod.pyi` exist, `Resolve("pkg.mod")` returns both (no
stop-at-first-match). -/
theorem resolver_accumulates_all_candidate_forms :
    (pythonResolveModule cfgResolver fsResolver "pkg.sub.mod" []).map
        (fun x => x.1.map RPath.render) =
      .ok ["pkg/sub/mod.py", "pkg/sub/__init__.py", "pkg/__init__.py"] ∧
    (pythonResolveModule cfgResolver fsResolverBoth "pkg.mod" []).map
        (fun x => x.1.map RPath.render) =
      .ok ["pkg/mod.py", "pkg/mod.pyi", "pkg/__init__.py"] := by
  decide

/-! ## C4 — when relative imports actually fail -/

/-- C4 counterexample: the module name `.foo` begins with `.` but does
not fall under the configured root package `pkg`, and `Resolve`
*succeeds* with the empty result (cached) instead of failing fatally:
the root-package filter runs before the relative-import check. -/
theorem relative_import_outside_roots_not_fatal :
    strHasPrefix ".foo" "." = true ∧
    pyModAllowed cfgResolver ".foo" = false ∧
    pythonResolveModule cfgResolver fsResolver ".foo" [] =
      .ok ([], [((["", "foo"] : RPath), ([] : List RPath))]) := by
  decide

/-- C4 amended: a module name beginning with `.` fails fatally if (and
only when) it passes the root-package filter; a cache miss is assumed
since a cached module returns its cached value first. -/
theorem relative_import_fatal_when_allowed (cfg : Config) (fs : RepoFS) (parts : RPath)
    (cache : ResolverCache) (hcache : cacheLookup cache parts = none)
    (hallow : pyModAllowed cfg (strJoin "." parts) = true)
    (hrel : strHasPrefix (strJoin "." parts) "." = true) :
    pythonResolve cfg fs parts cache =
      .error ("Relative imports are not supported: " ++ strJoin "." parts) := by
  rw [pythonResolve_eq, hcache]
  simp only [hallow, hrel, Bool.not_true, Bool.false_eq_true, if_false, if_true]

/-- Witness for the amended C4: with root package `.hidden`, resolving
the module `.hidden` passes the filter and hits the fatal
relative-import branch. -/
theorem relative_import_fatal_when_allowed_witness :
    cacheLookup [] (["", "hidden"] : RPath) = none ∧
    pyModAllowed ⟨[], [], [], [".hidden"], []⟩ (strJoin "." ["", "hidden"]) = true ∧
    strHasPrefix (strJoin "." ["", "hidden"]) "." = true ∧
    pythonResolve ⟨[], [], [], [".hidden"], []⟩ fsResolver ["", "hidden"] [] =
      .error ("Relative imports are not supported: " ++ strJoin "." ["", "hidden"]) :=
  ⟨by decide, by decide, by decide,
    relative_import_fatal_when_allowed ⟨[], [], [], [".hidden"], []⟩ fsResolver
      ["", "hidden"] [] (by decide) (by decide) (by decide)⟩

/-! ## C1 — the end-to-end grand-sibling scenario -/

/-- C1: in the end-to-end scenario, the stored relation list for
`tests/test_foo.py` is `[pkg/__init__.py, pkg/db.py, poetry.lock]` —
`conftest.py`, although present directly in the base root, is *not*
recorded: the grand-sibling walk (`for path_iter != "."`) globs at
`tests` and then stops before the base root, so a root-level
`conftest.py` is never visited. -/
theorem grand_sibling_scenario_omits_root_conftest :
    VisitRecursivelyF cfgScenario fsScenario 10 ["tests/test_foo.py"] [] [] [] =
      some (.ok scenarioRelMap) ∧
    relLookup scenarioRelMap "tests/test_foo.py" =
      ["pkg/__init__.py", "pkg/db.py", "poetry.lock"] ∧
    (relLookup scenarioRelMap "tests/test_foo.py").contains "conftest.py" = false ∧
    fsScenario.files.contains ["conftest.py"] = true := by
  decide

/-! ## C2 — zero matched input files -/

/-- A config/tree pair in which the input pattern matches nothing. -/
def cfgNoInputs : Config := ⟨["tests/**/test_*.py"], [], [], [], []⟩

/-- A tree with no test files. -/
def fsNoInputs : RepoFS :=
  ⟨[["README.md"]], [], fun _ => some "", fun _ _ => []⟩

/-- C2: when the input glob patterns match zero files, `main.go` runs
`log.Fatalln("No input files found. Exiting.")` — a *fatal non-zero*
process exit, not the clean no-op the specification describes (the
older program versions in the repository did exit cleanly here). -/
theorem zero_matched_inputs_is_fatal :
    collectInputFiles cfgNoInputs fsNoInputs = [] ∧
    mainInputPhase cfgNoInputs fsNoInputs =
      MainExit.fatalExit "No input files found. Exiting." := by
  decide

/-! ## C5 — the digest write order -/

/-- Folding paired writes over the closure is the same as the flat
spec-ordered write list. -/
theorem foldl_pair_writes (f g : String → List Nat) :
    ∀ (deps : List String) (w₀ : List (List Nat)),
      deps.foldl (fun ws dep => ws ++ [f dep, g dep]) w₀ =
        w₀ ++ deps.flatMap fun dep => [f dep, g dep] := by
  intro deps
  induction deps with
  | nil => intro w₀; simp
  | cons d rest ih =>
    intro w₀
    simp only [List.foldl_cons, List.flatMap_cons, ih]
    simp

/-- C5: the dependency digest is the hex encoding of the hash
accumulator fed, in this exact order: the 8-byte little-endian
algorithm-version constant, the salt, the config-file hash, the input
file's path, then for each closure file its path followed by its
content digest — the write sequence of `main.go` equals the
spec-ordered list, for every salt, config hash, file, closure and
content-digest table, and the emitted digest is the hex encoding of the
accumulator over exactly that stream. -/
theorem digest_write_order_matches_spec (sha : List Nat → List Nat) (hash_salt : String)
    (config_hash : List Nat) (file_name : String) (dep_list : List String)
    (fileHashes : String → List Nat) :
    depHashWrites hash_salt config_hash file_name dep_list fileHashes =
      specDigestWrites hash_salt config_hash file_name dep_list fileHashes ∧
    depHashHex sha hash_salt config_hash file_name dep_list fileHashes =
      hexEncode (sha (specDigestWrites hash_salt config_hash file_name dep_list
        fileHashes).flatten) := by
  have h := foldl_pair_writes strBytes fileHashes dep_list
    [leBytes 8 ALGORITHM_VERSION, strBytes hash_salt, config_hash, strBytes file_name]
  constructor
  · simpa [depHashWrites, specDigestWrites] using h
  · simp only [depHashHex, depHashWrites, specDigestWrites] at h ⊢
    rw [h]

/-! ## C8 — parent recursion iff a candidate form existed -/

/-- If no candidate form existed, none of the file-contributing probes
succeeded either. -/
theorem resolveOwnPaths_nil_of_not_found (fs : RepoFS) (parts : RPath)
    (h : resolveFoundAny fs parts = false) : resolveOwnPaths fs parts = [] := by
  simp only [resolveFoundAny, Bool.or_eq_false_iff] at h
  simp [resolveOwnPaths, h.1.1.1.1.1, h.1.1.1.2, h.1.1.2, h.1.2, h.2]

/-- C8: for a cache-missed, allowed, non-relative module, the resolver
recurses into the parent module name iff at least one candidate form
existed: when none existed the result is exactly the empty path list
(and the cache gains only the module's own negative entry — no parent
entry, so no recursion happened); when one existed and a parent name
exists, the result is the own-candidate files followed by the parent's
resolution. -/
theorem resolver_parent_recursion_iff_found (cfg : Config) (fs : RepoFS) (parts : RPath)
    (cache : ResolverCache) (hcache : cacheLookup cache parts = none)
    (hallow : pyModAllowed cfg (strJoin "." parts) = true)
    (hrel : strHasPrefix (strJoin "." parts) "." = false) :
    (resolveFoundAny fs parts = false →
      pythonResolve cfg fs parts cache = .ok ([], (parts, []) :: cache)) ∧
    (resolveFoundAny fs parts = true → 2 ≤ parts.length →
      pythonResolve cfg fs parts cache =
        match pythonResolve cfg fs parts.dropLast cache with
        | .error e => .error e
        | .ok (sub, cache₁) =>
          .ok (resolveOwnPaths fs parts ++ sub,
            (parts, resolveOwnPaths fs parts ++ sub) :: cache₁)) := by
  constructor
  · intro hnone
    rw [pythonResolve_eq, hcache]
    simp only [hallow, hrel, Bool.not_true, Bool.false_eq_true, if_false]
    rw [if_neg (by simp [hnone]), resolveOwnPaths_nil_of_not_found fs parts hnone]
  · intro hfound hlen
    rw [pythonResolve_eq, hcache]
    simp only [hallow, hrel, Bool.not_true, Bool.false_eq_true, if_false]
    rw [if_pos ⟨hlen, hfound⟩]

/-- Witness for C8: with root package `pkg` over the C3 tree, the
unresolvable module `pkg.nope` has no candidate form and resolves to
the empty sequence without recursion; `pkg.sub` has candidate forms and
a parent, and its result is its own files followed by the parent's. -/
theorem resolver_parent_recursion_iff_found_witness :
    (cacheLookup [] (["pkg", "nope"] : RPath) = none ∧
      pyModAllowed cfgResolver (strJoin "." ["pkg", "nope"]) = true ∧
      strHasPrefix (strJoin "." ["pkg", "nope"]) "." = false ∧
      resolveFoundAny fsResolver ["pkg", "nope"] = false ∧
      pythonResolve cfgResolver fsResolver ["pkg", "nope"] [] =
        .ok ([], [((["pkg", "nope"] : RPath), ([] : List RPath))])) ∧
    (resolveFoundAny fsResolver ["pkg", "sub"] = true ∧
      pythonResolve cfgResolver fsResolver ["pkg", "sub"] [] =
        match pythonResolve cfgResolver fsResolver (["pkg", "sub"] : RPath).dropLast [] with
        | .error e => .error e
        | .ok (sub, cache₁) =>
          .ok (resolveOwnPaths fsResolver ["pkg", "sub"] ++ sub,
            (["pkg", "sub"], resolveOwnPaths fsResolver ["pkg", "sub"] ++ sub) :: cache₁)) :=
  ⟨⟨by decide, by decide, by decide, by decide,
    (resolver_parent_recursion_iff_found cfgResolver fsResolver ["pkg", "nope"] []
      (by decide) (by decide) (by decide)).1 (by decide)⟩,
   ⟨by decide,
    (resolver_parent_recursion_iff_found cfgResolver fsResolver ["pkg", "sub"] []
      (by decide) (by decide) (by decide)).2 (by decide) (by decide)⟩⟩

/-! ## Order and canonicalization lemmas -/

theorem chLe_total : ∀ a b : List Char, chLe a b = true ∨ chLe b a = true
  | [], _ => by left; simp [chLe]
  | _ :: _, [] => by right; simp [chLe]
  | a :: as, b :: bs => by
    rcases lt_trichotomy a b with h | h | h
    · left; simp [chLe, h]
    · subst h
      rcases chLe_total as bs with ih | ih
      · left; simp [chLe, ih, lt_irrefl]
      · right; simp [chLe, ih, lt_irrefl]
    · right; simp [chLe, h]

theorem chLe_refl (a : List Char) : chLe a a = true := by
  rcases chLe_total a a with h | h <;> exact h

theorem chLe_trans : ∀ a b c : List Char, chLe a b = true → chLe b c = true →
    chLe a c = true
  | [], _, _, _, _ => by simp [chLe]
  | _ :: _, [], _, hab, _ => by simp [chLe] at hab
  | _ :: _, _ :: _, [], _, hbc => by simp [chLe] at hbc
  | a :: as, b :: bs, c :: cs, hab, hbc => by
    simp only [chLe] at hab hbc ⊢
    rcases lt_trichotomy a b with h₁ | h₁ | h₁
    · rcases lt_trichotomy b c with h₂ | h₂ | h₂
      · simp [lt_trans h₁ h₂]
      · subst h₂; simp [h₁]
      · rw [if_neg (lt_asymm h₂), if_neg (by simp [beq_iff_eq]; exact ne_of_gt h₂)] at hbc
        exact absurd hbc (by simp)
    · subst h₁
      rw [if_neg (lt_irrefl a), if_pos (by simp)] at hab
      rcases lt_trichotomy a c with h₂ | h₂ | h₂
      · simp [h₂]
      · subst h₂
        rw [if_neg (lt_irrefl a), if_pos (by simp)] at hbc ⊢
        exact chLe_trans as bs cs hab hbc
      · rw [if_neg (lt_asymm h₂), if_neg (by simp [beq_iff_eq]; exact ne_of_gt h₂)] at hbc
        exact absurd hbc (by simp)
    · rw [if_neg (lt_asymm h₁), if_neg (by simp [beq_iff_eq]; exact ne_of_gt h₁)] at hab
      exact absurd hab (by simp)

theorem chLe_antisymm : ∀ a b : List Char, chLe a b = true → chLe b a = true → a = b
  | [], [], _, _ => rfl
  | [], _ :: _, _, hba => by simp [chLe] at hba
  | _ :: _, [], hab, _ => by simp [chLe] at hab
  | a :: as, b :: bs, hab, hba => by
    simp only [chLe] at hab hba
    rcases lt_trichotomy a b with h₁ | h₁ | h₁
    · rw [if_neg (lt_asymm h₁), if_neg (by simp [beq_iff_eq]; exact ne_of_gt h₁)] at hba
      exact absurd hba (by simp)
    · subst h₁
      rw [if_neg (lt_irrefl a), if_pos (by simp)] at hab hba
      rw [chLe_antisymm as bs hab hba]
    · rw [if_neg (lt_asymm h₁), if_neg (by simp [beq_iff_eq]; exact ne_of_gt h₁)] at hab
      exact absurd hab (by simp)

theorem strData_injective : ∀ {a b : String}, a.data = b.data → a = b := by
  intro a b h
  cases a
  cases b
  exact congrArg String.mk h

instance : IsTotal String strLeRel :=
  ⟨fun a b => chLe_total a.data b.data⟩

instance : IsTrans String strLeRel :=
  ⟨fun a b c => chLe_trans a.data b.data c.data⟩

instance : IsAntisymm String strLeRel :=
  ⟨fun a b hab hba => strData_injective (chLe_antisymm a.data b.data hab hba)⟩

theorem goCompact_sublist {α : Type} [DecidableEq α] :
    ∀ l : List α, List.Sublist (goCompact l) l
  | [] => by simp [goCompact]
  | [a] => by simp [goCompact]
  | a :: b :: rest => by
    by_cases h : a = b
    · simpa [goCompact, h] using (goCompact_sublist (b :: rest)).cons a
    · simpa [goCompact, h] using (goCompact_sublist (b :: rest)).cons₂ a

theorem mem_goCompact {α : Type} [DecidableEq α] {x : α} :
    ∀ {l : List α}, x ∈ goCompact l ↔ x ∈ l
  | [] => by simp [goCompact]
  | [_] => by simp [goCompact]
  | a :: b :: rest => by
    by_cases h : a = b
    · subst h
      rw [show goCompact (a :: a :: rest) = goCompact (a :: rest) by simp [goCompact]]
      rw [@mem_goCompact _ _ _ (a :: rest)]
      simp
    · rw [show goCompact (a :: b :: rest) = a :: goCompact (b :: rest) by
        simp [goCompact, h]]
      simp only [List.mem_cons]
      rw [@mem_goCompact _ _ _ (b :: rest)]
      simp

theorem goCompact_nodup : ∀ l : List String, l.Sorted strLeRel → (goCompact l).Nodup
  | [], _ => by simp [goCompact]
  | [a], _ => by simp [goCompact]
  | a :: b :: rest, h => by
    have htail : (b :: rest).Sorted strLeRel := h.of_cons
    by_cases hab : a = b
    · simpa [goCompact, hab] using goCompact_nodup (b :: rest) htail
    · rw [show goCompact (a :: b :: rest) = a :: goCompact (b :: rest) by
        simp [goCompact, hab]]
      refine List.nodup_cons.mpr ⟨fun hmem => ?_, goCompact_nodup (b :: rest) htail⟩
      have hmem' : a ∈ b :: rest := mem_goCompact.mp hmem
      rcases List.mem_cons.mp hmem' with h' | h'
      · exact hab h'
      · have h₁ : strLeRel a b := (List.sorted_cons.mp h).1 b (List.mem_cons_self b rest)
        have h₂ : strLeRel b a := (List.sorted_cons.mp htail).1 a h'
        exact hab (antisymm h₁ h₂)

theorem goSort_perm (l : List String) : List.Perm (goSort l) l :=
  List.perm_insertionSort strLeRel l

theorem goSort_sorted (l : List String) : (goSort l).Sorted strLeRel :=
  List.sorted_insertionSort strLeRel l

theorem goSort_eq_of_perm {l l' : List String} (h : List.Perm l l') :
    goSort l = goSort l' :=
  List.eq_of_perm_of_sorted ((goSort_perm l).trans (h.trans (goSort_perm l').symm))
    (goSort_sorted l) (goSort_sorted l')

theorem sortDedup_sorted (l : List String) : (sortDedup l).Sorted strLeRel :=
  (goSort_sorted l).sublist (goCompact_sublist (goSort l))

theorem sortDedup_nodup (l : List String) : (sortDedup l).Nodup :=
  goCompact_nodup (goSort l) (goSort_sorted l)

theorem mem_sortDedup {x : String} {l : List String} : x ∈ sortDedup l ↔ x ∈ l :=
  mem_goCompact.trans (goSort_perm l).mem_iff

theorem sortDedup_eq_of_perm {l l' : List String} (h : List.Perm l l') :
    sortDedup l = sortDedup l' := by
  unfold sortDedup
  rw [goSort_eq_of_perm h]

/-! ## C6 — correctness of the closure walk (`BuildFullDepList`) -/

/-- One relation-map edge. -/
def reachStep (m : List (String × List String)) (a b : String) : Prop :=
  b ∈ relLookup m a

/-- Transitive reachability over the relation map (reflexive: a file
reaches itself). -/
def Reaches (m : List (String × List String)) : String → String → Prop :=
  Relation.ReflTransGen (reachStep m)

/-- Every relation-map value lies in the universe. -/
theorem relLookup_sub_universe (m : List (String × List String)) (file : String) :
    ∀ g x, x ∈ relLookup m g → x ∈ depListUniverse m file := by
  intro g x hx
  unfold relLookup at hx
  cases hfind : m.find? (fun e => e.1 == g) with
  | none => simp [hfind] at hx
  | some e =>
    simp only [hfind, Option.map_some, Option.getD_some] at hx
    have he : e ∈ m := List.mem_of_find?_eq_some hfind
    unfold depListUniverse
    exact List.mem_cons_of_mem _ (List.mem_flatMap.mpr ⟨e, he, List.mem_cons_of_mem _ hx⟩)

/-- Removing more elements cannot enlarge the unvisited count. -/
theorem unvisited_mono (U : List String) :
    ∀ (vis vis' : List String), (∀ x, x ∈ vis → x ∈ vis') →
      (U.filter fun x => !vis'.contains x).length ≤
        (U.filter fun x => !vis.contains x).length := by
  induction U with
  | nil => intro vis vis' _; simp
  | cons u rest ih =>
    intro vis vis' h
    simp only [List.filter_cons]
    by_cases hu : u ∈ vis'
    · rw [if_neg (by simp [List.elem_iff, hu])]
      by_cases hv : u ∈ vis
      · rw [if_neg (by simp [List.elem_iff, hv])]
        exact ih vis vis' h
      · rw [if_pos (by simp [List.elem_iff, hv])]
        exact Nat.le_succ_of_le (ih vis vis' h)
    · have hvv : u ∉ vis := fun hx => hu (h u hx)
      rw [if_pos (by simp [List.elem_iff, hu]), if_pos (by simp [List.elem_iff, hvv])]
      simpa using ih vis vis' h

/-- Marking an unvisited universe member strictly shrinks the
unvisited count. -/
theorem unvisited_strict (U : List String) (vis : List String) (f : String)
    (hfU : f ∈ U) (hfvis : f ∉ vis) :
    (U.filter fun x => !(f :: vis).contains x).length <
      (U.filter fun x => !vis.contains x).length := by
  induction U with
  | nil => simp at hfU
  | cons u rest ih =>
    simp only [List.filter_cons]
    by_cases huf : u = f
    · subst huf
      rw [if_neg (by simp), if_pos (by simp [List.elem_iff, hfvis])]
      simp only [List.length_cons]
      exact Nat.lt_succ_of_le (unvisited_mono rest vis (u :: vis)
        (fun x hx => List.mem_cons_of_mem _ hx))
    · have hfr : f ∈ rest := by
        rcases List.mem_cons.mp hfU with h | h
        · exact absurd h.symm huf
        · exact h
      by_cases hv : u ∈ f :: vis
      · rw [if_neg (by simp [List.elem_iff, hv])]
        by_cases hv₂ : u ∈ vis
        · rw [if_neg (by simp [List.elem_iff, hv₂])]
          exact ih hfr
        · rw [if_pos (by simp [List.elem_iff, hv₂])]
          simp only [List.length_cons]
          exact Nat.lt_succ_of_le (Nat.le_of_lt (ih hfr))
      · have hv₂ : u ∉ vis := fun hx => hv (List.mem_cons_of_mem _ hx)
        rw [if_pos (by simp [List.elem_iff, hv]), if_pos (by simp [List.elem_iff, hv₂])]
        simp only [List.length_cons]
        exact Nat.succ_lt_succ (ih hfr)

/-- The closure-walk invariant: with sufficient fuel, starting the walk
at `f` over visited set `vis` (1) only grows the visited set, (2)
appends to the output exactly the newly visited files, without
duplicates, (3) visits `f`, (4) every newly visited file is reachable
from `f`, and (5) every newly visited file has all its direct relations
visited by the end. -/
theorem buildDepListF_spec (m : List (String × List String)) (U : List String)
    (hU : ∀ g x, x ∈ relLookup m g → x ∈ U) :
    ∀ (fuel : Nat) (f : String) (vis out : List String),
      f ∈ U → (U.filter fun x => !vis.contains x).length < fuel →
      ∃ vis' δ,
        buildDepListF m fuel f (vis, out) = (vis', out ++ δ) ∧
        (∀ x, x ∈ vis → x ∈ vis') ∧
        (∀ x, x ∈ δ ↔ (x ∈ vis' ∧ x ∉ vis)) ∧
        δ.Nodup ∧
        f ∈ vis' ∧
        (∀ x ∈ δ, Reaches m f x) ∧
        (∀ x ∈ δ, ∀ y ∈ relLookup m x, y ∈ vis') := by
  intro fuel
  induction fuel with
  | zero => intro f vis out _ hμ; omega
  | succ n ih =>
    intro f vis out hf hμ
    by_cases hvis : f ∈ vis
    · refine ⟨vis, [], ?_, fun x h => h, by simp, List.nodup_nil, hvis, by simp, by simp⟩
      simp [buildDepListF, List.elem_iff, hvis]
    · have hfold : ∀ (rs : List String), (∀ r ∈ rs, r ∈ U) →
          ∀ (vis₁ out₁ : List String),
          (U.filter fun x => !vis₁.contains x).length < n →
          ∃ vis₂ δ,
            rs.foldl (fun st' r => buildDepListF m n r st') (vis₁, out₁) =
              (vis₂, out₁ ++ δ) ∧
            (∀ x, x ∈ vis₁ → x ∈ vis₂) ∧
            (∀ x, x ∈ δ ↔ (x ∈ vis₂ ∧ x ∉ vis₁)) ∧
            δ.Nodup ∧
            (∀ x ∈ δ, ∃ r ∈ rs, Reaches m r x) ∧
            (∀ x ∈ δ, ∀ y ∈ relLookup m x, y ∈ vis₂) ∧
            (∀ r ∈ rs, r ∈ vis₂) := by
        intro rs
        induction rs with
        | nil =>
          intro _ vis₁ out₁ _
          exact ⟨vis₁, [], by simp, fun x h => h, by simp, List.nodup_nil, by simp,
            by simp, by simp⟩
        | cons r rs' ihr =>
          intro hrs vis₁ out₁ hμ₁
          obtain ⟨visA, δA, hresA, hmonoA, hmemA, hndA, hfA, hreachA, hclosedA⟩ :=
            ih r vis₁ out₁ (hrs r (List.mem_cons_self r rs')) hμ₁
          have hμA : (U.filter fun x => !visA.contains x).length < n :=
            lt_of_le_of_lt (unvisited_mono U vis₁ visA hmonoA) hμ₁
          obtain ⟨visB, δB, hresB, hmonoB, hmemB, hndB, hreachB, hclosedB, hrootsB⟩ :=
            ihr (fun r' h => hrs r' (List.mem_cons_of_mem _ h)) visA (out₁ ++ δA) hμA
          refine ⟨visB, δA ++ δB, ?_, ?_, ?_, ?_, ?_, ?_, ?_⟩
          · rw [List.foldl_cons, hresA, hresB, List.append_assoc]
          · exact fun x h => hmonoB x (hmonoA x h)
          · intro x
            constructor
            · intro hx
              rcases List.mem_append.mp hx with hx | hx
              · have h := (hmemA x).mp hx
                exact ⟨hmonoB x h.1, h.2⟩
              · have h := (hmemB x).mp hx
                exact ⟨h.1, fun hxv => h.2 (hmonoA x hxv)⟩
            · intro ⟨hxB, hxv⟩
              by_cases hxA : x ∈ visA
              · exact List.mem_append.mpr (Or.inl ((hmemA x).mpr ⟨hxA, hxv⟩))
              · exact List.mem_append.mpr (Or.inr ((hmemB x).mpr ⟨hxB, hxA⟩))
          · refine List.Nodup.append hndA hndB ?_
            intro x hxA hxB
            exact ((hmemB x).mp hxB).2 (((hmemA x).mp hxA).1)
          · intro x hx
            rcases List.mem_append.mp hx with hx | hx
            · exact ⟨r, List.mem_cons_self r rs', hreachA x hx⟩
            · obtain ⟨r', hr', hre⟩ := hreachB x hx
              exact ⟨r', List.mem_cons_of_mem _ hr', hre⟩
          · intro x hx
            rcases List.mem_append.mp hx with hx | hx
            · exact fun y hy => hmonoB y (hclosedA x hx y hy)
            · exact hclosedB x hx
          · intro r' hr'
            rcases List.mem_cons.mp hr' with h | h
            · exact hmonoB r' (h ▸ hfA)
            · exact hrootsB r' h
      have hμ₁ : (U.filter fun x => !(f :: vis).contains x).length < n := by
        have := unvisited_strict U vis f hf hvis
        omega
      obtain ⟨visB, δB, hresB, hmonoB, hmemB, hndB, hreachB, hclosedB, hrootsB⟩ :=
        hfold (relLookup m f) (fun r hr => hU f r hr) (f :: vis) out hμ₁
      have hfB : f ∈ visB := hmonoB f (List.mem_cons_self f vis)
      refine ⟨visB, δB ++ [f], ?_, ?_, ?_, ?_, hfB, ?_, ?_⟩
      · show buildDepListF m (n + 1) f (vis, out) = (visB, out ++ (δB ++ [f]))
        simp only [buildDepListF, List.elem_iff]
        rw [if_neg (by simp [List.elem_iff, hvis])]
        simp only [hresB, ← List.append_assoc]
      · exact fun x h => hmonoB x (List.mem_cons_of_mem _ h)
      · intro x
        constructor
        · intro hx
          rcases List.mem_append.mp hx with hx | hx
          · have h := (hmemB x).mp hx
            exact ⟨h.1, fun hxv => h.2 (List.mem_cons_of_mem _ hxv)⟩
          · have hxf : x = f := by simpa using hx
            exact hxf ▸ ⟨hfB, hvis⟩
        · intro ⟨hxB, hxv⟩
          by_cases hxf : x = f
          · exact List.mem_append.mpr (Or.inr (by simp [hxf]))
          · refine List.mem_append.mpr (Or.inl ((hmemB x).mpr ⟨hxB, fun hc => ?_⟩))
            rcases List.mem_cons.mp hc with h | h
            · exact hxf h
            · exact hxv h
      · refine List.Nodup.append hndB (List.nodup_singleton f) ?_
        intro x hxB hxf
        have hxf' : x = f := by simpa using hxf
        exact ((hmemB x).mp hxB).2 (hxf' ▸ List.mem_cons_self f vis)
      · intro x hx
        rcases List.mem_append.mp hx with hx | hx
        · obtain ⟨r, hr, hre⟩ := hreachB x hx
          exact Relation.ReflTransGen.head hr hre
        · have hxf : x = f := by simpa using hx
          exact hxf ▸ Relation.ReflTransGen.refl
      · intro x hx
        rcases List.mem_append.mp hx with hx | hx
        · exact hclosedB x hx
        · have hxf : x = f := by simpa using hx
          exact fun y hy => hrootsB y (hxf ▸ hy)

/-- The closure walk from scratch: the output is duplicate-free and
holds exactly the files reachable from the start file. -/
theorem buildDepListF_run (m : List (String × List String)) (file : String) :
    ∃ vis' δ,
      buildDepListF m ((depListUniverse m file).length + 1) file ([], []) = (vis', δ) ∧
      δ.Nodup ∧
      ∀ x, x ∈ δ ↔ Reaches m file x := by
  obtain ⟨vis', δ, hres, _, hmem, hnd, hfv, hreach, hclosed⟩ :=
    buildDepListF_spec m (depListUniverse m file) (relLookup_sub_universe m file)
      ((depListUniverse m file).length + 1) file [] []
      (List.mem_cons_self _ _) (by simp)
  have hmem' : ∀ x, x ∈ δ ↔ x ∈ vis' := by
    intro x
    rw [hmem x]
    simp
  refine ⟨vis', δ, by simpa using hres, hnd, fun x => ?_⟩
  rw [hmem' x]
  constructor
  · intro hx
    by_cases hxd : x ∈ δ
    · exact hreach x hxd
    · exact absurd ((hmem' x).mpr hx) hxd
  · intro hre
    induction hre with
    | refl => exact hfv
    | tail _ hbc ihv =>
      rename_i b c _
      exact hclosed b ((hmem' b).mpr ihv) c hbc

/-- C6: for every relation map and file, `BuildFullDepList` returns a
sorted, duplicate-free sequence holding exactly the files transitively
reachable from the file (including the file itself, by reflexivity of
`Reaches`); and on the two-file cycle in which each file lists the
other, each file's closure is `[a.py, b.py]` with the partner appearing
exactly once — the computation terminates and de-duplicates through the
cycle. -/
theorem BuildFullDepList_sorted_closure :
    (∀ (m : List (String × List String)) (file : String),
      (BuildFullDepList m file).Sorted strLeRel ∧
      (BuildFullDepList m file).Nodup ∧
      ∀ x, x ∈ BuildFullDepList m file ↔ Reaches m file x) ∧
    (BuildFullDepList [("a.py", ["b.py"]), ("b.py", ["a.py"])] "a.py" = ["a.py", "b.py"] ∧
      BuildFullDepList [("a.py", ["b.py"]), ("b.py", ["a.py"])] "b.py" = ["a.py", "b.py"] ∧
      (BuildFullDepList [("a.py", ["b.py"]), ("b.py", ["a.py"])] "a.py").count "b.py" = 1 ∧
      (BuildFullDepList [("a.py", ["b.py"]), ("b.py", ["a.py"])] "b.py").count "a.py" = 1) := by
  constructor
  · intro m file
    obtain ⟨vis', δ, hres, hnd, hmem⟩ := buildDepListF_run m file
    have hdef : BuildFullDepList m file = goSort δ := by
      unfold BuildFullDepList
      rw [hres]
    refine ⟨hdef ▸ goSort_sorted δ, hdef ▸ ((goSort_perm δ).nodup_iff.mpr hnd), ?_⟩
    intro x
    rw [hdef, (goSort_perm δ).mem_iff, hmem x]
  · exact ⟨by decide, by decide, by decide, by decide⟩

/-! ## C9/C10 — boundedness of engine outputs and the wave loop

Everything the relation engine records is either an existing file, an
existing directory, or (after seeding) a configured global dependency;
this bounds the universe of the wave-by-wave expansion. -/

/-- A recorded path points at an existing filesystem entry. -/
def PathOk (fs : RepoFS) (p : RPath) : Prop :=
  p ∈ fs.files ∨ p ∈ fs.dirs

/-- Every cached resolver value is bounded by the filesystem. -/
def CacheBounded (fs : RepoFS) (c : ResolverCache) : Prop :=
  ∀ k v, cacheLookup c k = some v → ∀ p ∈ v, PathOk fs p

theorem statSucceeds_iff_pathOk (fs : RepoFS) (p : RPath) :
    fs.statSucceeds p = true ↔ PathOk fs p := by
  simp [RepoFS.statSucceeds, PathOk, List.elem_iff]

theorem globFiles_mem (fs : RepoFS) (dir : RPath) (pat : List String) :
    ∀ r ∈ globFiles fs dir pat, dir ++ r ∈ fs.files := by
  intro r hr
  unfold globFiles at hr
  obtain ⟨f, hf, hfr⟩ := List.mem_filterMap.mp hr
  by_cases hpre : dir.isPrefixOf f
  · rw [if_pos hpre] at hfr
    by_cases hm : matchGlob pat (f.drop dir.length) = true
    · rw [if_pos hm] at hfr
      obtain ⟨t, ht⟩ := List.isPrefixOf_iff_prefix.mp hpre
      have : f.drop dir.length = t := by rw [← ht, List.drop_left]
      rw [← Option.some_inj.mp hfr, this, ht]
      exact hf
    · rw [if_neg hm] at hfr
      cases hfr
  · rw [if_neg hpre] at hfr
    cases hfr

theorem globFiles_root_mem (fs : RepoFS) (pat : List String) :
    ∀ r ∈ globFiles fs [] pat, r ∈ fs.files := by
  intro r hr
  simpa using globFiles_mem fs [] pat r hr

theorem resolveOwnPaths_ok (fs : RepoFS) (parts : RPath) :
    ∀ p ∈ resolveOwnPaths fs parts, PathOk fs p := by
  intro p hp
  unfold resolveOwnPaths at hp
  refine (statSucceeds_iff_pathOk fs p).mp ?_
  rcases List.mem_append.mp hp with h | h
  rcases List.mem_append.mp h with h | h
  rcases List.mem_append.mp h with h | h
  rcases List.mem_append.mp h with h | h
  all_goals
    revert h
    split <;> intro h <;> simp_all

/-- Unfolding Go map insertion in the resolver cache. -/
theorem cacheLookup_cons (k₀ : RPath) (v₀ : List RPath) (c : ResolverCache) (k : RPath) :
    cacheLookup ((k₀, v₀) :: c) k = if k₀ == k then some v₀ else cacheLookup c k := by
  by_cases h : (k₀ == k) = true <;> simp [cacheLookup, List.find?_cons, h]

theorem cacheBounded_cons {fs : RepoFS} {c : ResolverCache} {k₀ : RPath} {v₀ : List RPath}
    (hcb : CacheBounded fs c) (hv : ∀ p ∈ v₀, PathOk fs p) :
    CacheBounded fs ((k₀, v₀) :: c) := by
  intro k v hlook
  rw [cacheLookup_cons] at hlook
  by_cases h : (k₀ == k) = true
  · rw [if_pos h] at hlook
    cases hlook
    exact hv
  · rw [if_neg h] at hlook
    exact hcb k v hlook

/-- Resolver outputs are bounded by the filesystem, and the cache stays
bounded. -/
theorem pythonResolveF_bounded (cfg : Config) (fs : RepoFS) :
    ∀ (fuel : Nat) (parts : RPath) (cache : ResolverCache) (paths : List RPath)
      (cache' : ResolverCache),
      CacheBounded fs cache →
      pythonResolveF cfg fs fuel parts cache = .ok (paths, cache') →
      (∀ p ∈ paths, PathOk fs p) ∧ CacheBounded fs cache' := by
  intro fuel
  induction fuel with
  | zero => intro parts cache paths cache' _ hres; exact absurd hres (by simp [pythonResolveF])
  | succ n ih =>
    intro parts cache paths cache' hcb hres
    simp only [pythonResolveF] at hres
    cases hcl : cacheLookup cache parts with
    | some v =>
      rw [hcl] at hres
      simp only [Except.ok.injEq, Prod.mk.injEq] at hres
      obtain ⟨h₁, h₂⟩ := hres
      subst h₁ h₂
      exact ⟨hcb parts v hcl, hcb⟩
    | none =>
      rw [hcl] at hres
      by_cases hallow : (!pyModAllowed cfg (strJoin "." parts)) = true
      · rw [if_pos hallow] at hres
        simp only [Except.ok.injEq, Prod.mk.injEq] at hres
        obtain ⟨h₁, h₂⟩ := hres
        subst h₁ h₂
        exact ⟨by simp, cacheBounded_cons hcb (by simp)⟩
      · rw [if_neg hallow] at hres
        by_cases hrel : strHasPrefix (strJoin "." parts) "." = true
        · rw [if_pos hrel] at hres
          cases hres
        · rw [if_neg hrel] at hres
          by_cases hrec : 2 ≤ parts.length ∧ resolveFoundAny fs parts = true
          · rw [if_pos hrec] at hres
            cases hsub : pythonResolveF cfg fs n parts.dropLast cache with
            | error e => rw [hsub] at hres; cases hres
            | ok pr =>
              obtain ⟨sub, cache₁⟩ := pr
              rw [hsub] at hres
              simp only [Except.ok.injEq, Prod.mk.injEq] at hres
              obtain ⟨h₁, h₂⟩ := hres
              subst h₁ h₂
              obtain ⟨hsubok, hcb₁⟩ := ih parts.dropLast cache sub cache₁ hcb hsub
              have hall : ∀ p ∈ resolveOwnPaths fs parts ++ sub, PathOk fs p := by
                intro p hp
                rcases List.mem_append.mp hp with hp | hp
                · exact resolveOwnPaths_ok fs parts p hp
                · exact hsubok p hp
              exact ⟨hall, cacheBounded_cons hcb₁ hall⟩
          · rw [if_neg hrec] at hres
            simp only [Except.ok.injEq, Prod.mk.injEq] at hres
            obtain ⟨h₁, h₂⟩ := hres
            subst h₁ h₂
            exact ⟨resolveOwnPaths_ok fs parts, cacheBounded_cons hcb (resolveOwnPaths_ok fs parts)⟩


/-! ### Boundedness of the engine -/

/-- Invariant preservation through a monadic fold over `Except`. -/
theorem foldlM_except_inv {α β : Type} (P : β → Prop) (f : β → α → Except String β)
    (hf : ∀ b a b', P b → f b a = .ok b' → P b') :
    ∀ (l : List α) (b₀ b₁ : β), P b₀ → l.foldlM f b₀ = .ok b₁ → P b₁ := by
  intro l
  induction l with
  | nil =>
    intro b₀ b₁ h hres
    simp only [List.foldlM_nil] at hres
    cases hres
    exact h
  | cons a l ih =>
    intro b₀ b₁ h hres
    rw [List.foldlM_cons] at hres
    cases hstep : f b₀ a with
    | error e =>
      rw [hstep] at hres
      simp [Bind.bind, Except.bind] at hres
    | ok b' =>
      rw [hstep] at hres
      simp only [Bind.bind, Except.bind] at hres
      exact ih b' b₁ (hf b₀ a b' h hstep) hres

/-- One submodule expansion only records existing files. -/
theorem submoduleStep_bounded (cfg : Config) (fs : RepoFS) (idents : List (String × String))
    (acc : List RPath) (mod_name : String) (acc' : List RPath)
    (h : ∀ p ∈ acc, PathOk fs p)
    (hres : submoduleStep cfg fs idents acc mod_name = .ok acc') :
    ∀ p ∈ acc', PathOk fs p := by
  unfold submoduleStep at hres
  cases htgt : submoduleTarget cfg idents mod_name with
  | error e => rw [htgt] at hres; cases hres
  | ok full =>
    rw [htgt] at hres
    cases hres
    intro p hp
    rcases List.mem_append.mp hp with hp | hp
    · exact h p hp
    · exact Or.inl (globFiles_root_mem fs _ p hp)

/-- One import resolution only records existing entries and keeps the
cache bounded. -/
theorem resolveImportsStep_bounded (cfg : Config) (fs : RepoFS)
    (st : List RPath × ResolverCache) (module : String)
    (st' : List RPath × ResolverCache)
    (h : (∀ p ∈ st.1, PathOk fs p) ∧ CacheBounded fs st.2)
    (hres : resolveImportsStep cfg fs st module = .ok st') :
    (∀ p ∈ st'.1, PathOk fs p) ∧ CacheBounded fs st'.2 := by
  unfold resolveImportsStep at hres
  cases hrm : pythonResolveModule cfg fs module st.2 with
  | error e => rw [hrm] at hres; cases hres
  | ok pr =>
    obtain ⟨paths, c'⟩ := pr
    rw [hrm] at hres
    cases hres
    obtain ⟨hpaths, hc'⟩ := pythonResolveF_bounded cfg fs _ _ _ _ _ h.2 hrm
    refine ⟨fun p hp => ?_, hc'⟩
    rcases List.mem_append.mp hp with hp | hp
    · exact h.1 p hp
    · exact hpaths p hp

/-- Every relation recorded by one Actions application points at an
existing filesystem entry, and the resolver cache stays bounded. -/
theorem applyActions_bounded (cfg : Config) (fs : RepoFS) (actions : RuleActions)
    (file : RPath) (regex_result : List String) (file_data : Option String)
    (cache : ResolverCache) (rels : List RPath) (fd' : Option String)
    (cache' : ResolverCache) (hcb : CacheBounded fs cache)
    (hres : applyActions cfg fs actions file regex_result file_data cache =
      .ok (rels, fd', cache')) :
    (∀ p ∈ rels, PathOk fs p) ∧ CacheBounded fs cache' := by
  unfold applyActions at hres
  have hbase : ∀ p ∈
      ((applyOnTemplates regex_result actions.visit).flatMap fun pat =>
        globFiles fs [] (strSplitOn '/' pat)) ++
      ((applyOnTemplates regex_result actions.visit_siblings).flatMap fun pat =>
        (globFiles fs file.dropLast (strSplitOn '/' pat)).map fun r =>
          file.dropLast ++ r) ++
      ((ancestorChain file.dropLast).flatMap fun d =>
        (applyOnTemplates regex_result actions.visit_grand_siblings).flatMap fun pat =>
          (globFiles fs d (strSplitOn '/' pat)).map fun r => d ++ r),
      PathOk fs p := by
    intro p hp
    rcases List.mem_append.mp hp with hp | hp
    · rcases List.mem_append.mp hp with hp | hp
      · obtain ⟨pat, _, hg⟩ := List.mem_flatMap.mp hp
        exact Or.inl (globFiles_root_mem fs _ p hg)
      · obtain ⟨pat, _, hg⟩ := List.mem_flatMap.mp hp
        obtain ⟨r, hr, hpr⟩ := List.mem_map.mp hg
        exact Or.inl (hpr ▸ globFiles_mem fs _ _ r hr)
    · obtain ⟨d, _, hg⟩ := List.mem_flatMap.mp hp
      obtain ⟨pat, _, hg₂⟩ := List.mem_flatMap.mp hg
      obtain ⟨r, hr, hpr⟩ := List.mem_map.mp hg₂
      exact Or.inl (hpr ▸ globFiles_mem fs _ _ r hr)
  by_cases hpy : (actions.visit_imported_python_modules
      || !actions.visit_python_all_submodules_for.isEmpty) = true
  · rw [if_pos hpy] at hres
    cases hread : readFileData fs file file_data with
    | error e => rw [hread] at hres; simp at hres
    | ok d =>
      rw [hread] at hres
      simp only [] at hres
      cases hsub : (applyOnTemplates regex_result
          actions.visit_python_all_submodules_for).foldlM
            (submoduleStep cfg fs (pythonParseImports d).2) [] with
      | error e => rw [hsub] at hres; simp at hres
      | ok subRels =>
        rw [hsub] at hres
        simp only [] at hres
        have hsubok : ∀ p ∈ subRels, PathOk fs p :=
          foldlM_except_inv (fun acc => ∀ p ∈ acc, PathOk fs p)
            (submoduleStep cfg fs (pythonParseImports d).2)
            (fun b a b' hb hstep => submoduleStep_bounded cfg fs _ b a b' hb hstep)
            _ [] subRels (by simp) hsub
        cases himp : (pythonParseImports d).1.foldlM (resolveImportsStep cfg fs)
            ([], cache) with
        | error e => rw [himp] at hres; simp at hres
        | ok st =>
          obtain ⟨importRels, cacheI⟩ := st
          rw [himp] at hres
          simp only [Except.ok.injEq, Prod.mk.injEq] at hres
          obtain ⟨h₁, _, h₃⟩ := hres
          subst h₁ h₃
          have himpok :=
            foldlM_except_inv
              (fun st : List RPath × ResolverCache =>
                (∀ p ∈ st.1, PathOk fs p) ∧ CacheBounded fs st.2)
              (resolveImportsStep cfg fs)
              (fun b a b' hb hstep => resolveImportsStep_bounded cfg fs b a b' hb hstep)
              _ ([], cache) (importRels, cacheI) ⟨by simp, hcb⟩ himp
          refine ⟨fun p hp => ?_, himpok.2⟩
          rcases List.mem_append.mp hp with hp | hp
          rcases List.mem_append.mp hp with hp | hp
          · exact hbase p hp
          · exact hsubok p hp
          · exact himpok.1 p hp
  · rw [if_neg hpy] at hres
    simp only [Except.ok.injEq, Prod.mk.injEq] at hres
    obtain ⟨h₁, _, h₃⟩ := hres
    subst h₁ h₃
    exact ⟨hbase, hcb⟩

/-- The regex-sub-rule loop preserves boundedness. -/
theorem visitRegexRules_bounded (cfg : Config) (fs : RepoFS) (file : RPath) :
    ∀ (rules : List (String × RuleActions)) (file_data : Option String)
      (cache : ResolverCache) (acc acc' : List RPath) (fd' : Option String)
      (cache' : ResolverCache),
      (∀ p ∈ acc, PathOk fs p) → CacheBounded fs cache →
      visitRegexRules cfg fs file rules file_data cache acc = .ok (acc', fd', cache') →
      (∀ p ∈ acc', PathOk fs p) ∧ CacheBounded fs cache' := by
  intro rules
  induction rules with
  | nil =>
    intro file_data cache acc acc' fd' cache' hacc hcb hres
    simp only [visitRegexRules, Except.ok.injEq, Prod.mk.injEq] at hres
    obtain ⟨h₁, _, h₃⟩ := hres
    subst h₁ h₃
    exact ⟨hacc, hcb⟩
  | cons rule rest ih =>
    intro file_data cache acc acc' fd' cache' hacc hcb hres
    obtain ⟨regex_pattern, regex_actions⟩ := rule
    simp only [visitRegexRules] at hres
    by_cases hexc : checkExcludePatterns regex_actions.exclude file = true
    · rw [if_pos hexc] at hres
      exact ih file_data cache acc acc' fd' cache' hacc hcb hres
    · rw [if_neg hexc] at hres
      cases hread : readFileData fs file file_data with
      | error e => rw [hread] at hres; simp at hres
      | ok d =>
        rw [hread] at hres
        simp only [] at hres
        cases hfold : (fs.regexFindAll regex_pattern d).foldlM
            (regexMatchStep cfg fs regex_actions file) (acc, some d, cache) with
        | error e => rw [hfold] at hres; simp at hres
        | ok st =>
          obtain ⟨accM, fdM, cacheM⟩ := st
          rw [hfold] at hres
          simp only [] at hres
          have hinv :=
            foldlM_except_inv
              (fun st : List RPath × Option String × ResolverCache =>
                (∀ p ∈ st.1, PathOk fs p) ∧ CacheBounded fs st.2.2)
              (regexMatchStep cfg fs regex_actions file) ?_ _
              (acc, some d, cache) (accM, fdM, cacheM) ⟨hacc, hcb⟩ hfold
          · exact ih fdM cacheM accM acc' fd' cache' hinv.1 hinv.2 hres
          · intro b a b' hb hstep
            unfold regexMatchStep at hstep
            cases happ : applyActions cfg fs regex_actions file a b.2.1 b.2.2 with
            | error e => rw [happ] at hstep; cases hstep
            | ok tr =>
              obtain ⟨rels, fd, c'⟩ := tr
              rw [happ] at hstep
              cases hstep
              obtain ⟨hrels, hc'⟩ := applyActions_bounded cfg fs regex_actions file
                a b.2.1 b.2.2 rels fd c' hb.2 happ
              refine ⟨fun p hp => ?_, hc'⟩
              rcases List.mem_append.mp hp with hp | hp
              · exact hb.1 p hp
              · exact hrels p hp

/-- The path-rule loop preserves boundedness. -/
theorem visitPathRules_bounded (cfg : Config) (fs : RepoFS) (file : RPath) :
    ∀ (rules : List (String × PathRule)) (cache : ResolverCache) (acc acc' : List RPath)
      (cache' : ResolverCache),
      (∀ p ∈ acc, PathOk fs p) → CacheBounded fs cache →
      visitPathRules cfg fs file rules cache acc = .ok (acc', cache') →
      (∀ p ∈ acc', PathOk fs p) ∧ CacheBounded fs cache' := by
  intro rules
  induction rules with
  | nil =>
    intro cache acc acc' cache' hacc hcb hres
    simp only [visitPathRules, Except.ok.injEq, Prod.mk.injEq] at hres
    obtain ⟨h₁, h₂⟩ := hres
    subst h₁ h₂
    exact ⟨hacc, hcb⟩
  | cons rule rest ih =>
    intro cache acc acc' cache' hacc hcb hres
    obtain ⟨rule_pattern, path_rule⟩ := rule
    simp only [visitPathRules] at hres
    by_cases hm : globMatch rule_pattern file = true
    · rw [if_pos hm] at hres
      cases happ : applyActions cfg fs path_rule.actions file [] none cache with
      | error e => rw [happ] at hres; simp at hres
      | ok tr =>
        obtain ⟨rels, fd, cache₁⟩ := tr
        rw [happ] at hres
        simp only [] at hres
        obtain ⟨hrels, hcb₁⟩ := applyActions_bounded cfg fs path_rule.actions file
          [] none cache rels fd cache₁ hcb happ
        have haccr : ∀ p ∈ acc ++ rels, PathOk fs p := by
          intro p hp
          rcases List.mem_append.mp hp with hp | hp
          · exact hacc p hp
          · exact hrels p hp
        cases hrr : visitRegexRules cfg fs file path_rule.regex_rules fd cache₁
            (acc ++ rels) with
        | error e => rw [hrr] at hres; simp at hres
        | ok st =>
          obtain ⟨acc₂, fd₂, cache₂⟩ := st
          rw [hrr] at hres
          simp only [] at hres
          obtain ⟨hacc₂, hcb₂⟩ := visitRegexRules_bounded cfg fs file
            path_rule.regex_rules fd cache₁ (acc ++ rels) acc₂ fd₂ cache₂ haccr hcb₁ hrr
          exact ih cache₂ acc₂ acc' cache' hacc₂ hcb₂ hres
    · rw [if_neg hm] at hres
      exact ih cache acc acc' cache' hacc hcb hres

/-- Every relation the engine records for a file points at an existing
filesystem entry; the resolver cache stays bounded. -/
theorem visitFile_bounded (cfg : Config) (fs : RepoFS) (file : RPath)
    (cache : ResolverCache) (rels : List RPath) (cache' : ResolverCache)
    (hcb : CacheBounded fs cache)
    (hres : visitFile cfg fs file cache = .ok (rels, cache')) :
    (∀ p ∈ rels, PathOk fs p) ∧ CacheBounded fs cache' := by
  unfold visitFile at hres
  by_cases hexc : checkExcludePatterns cfg.global_exclude file = true
  · rw [if_pos hexc] at hres
    cases hres
    exact ⟨by simp, hcb⟩
  · rw [if_neg hexc] at hres
    exact visitPathRules_bounded cfg fs file cfg.path_rules cache [] rels cache'
      (by simp) hcb hres

/-! ### The wave invariant and termination of graph construction -/

/-- A frontier pass over an entirely visited frontier is a no-op. -/
theorem visitWave_all_visited (cfg : Config) (fs : RepoFS) :
    ∀ (frontier visited relMap₀ related : List String) (relMap : List (String × List String))
      (cache : ResolverCache),
      relMap₀ = [] →
      (∀ f ∈ frontier, f ∈ visited) →
      visitWave cfg fs frontier visited relMap related cache =
        .ok (visited, relMap, related, cache) := by
  intro frontier
  induction frontier with
  | nil => intro _ _ _ _ _ _ _; rfl
  | cons f rest ih =>
    intro visited relMap₀ related relMap cache h₀ hall
    simp only [visitWave]
    rw [if_pos (by simp [List.elem_iff]; exact hall f (List.mem_cons_self f rest))]
    exact ih visited relMap₀ related relMap cache h₀
      (fun f' hf' => hall f' (List.mem_cons_of_mem _ hf'))

/-- The frontier-pass invariant: visited grows only by frontier files;
the appended next-frontier entries are global deps or renderings of
existing filesystem entries, and any appended entry implies a newly
processed frontier file; the cache stays bounded; every new
relation-map entry for a globally excluded file is exactly the sorted
de-duplicated `global_deps`. -/
theorem visitWave_spec (cfg : Config) (fs : RepoFS) :
    ∀ (frontier visited related : List String) (relMap : List (String × List String))
      (cache : ResolverCache) (visited' related' : List String)
      (relMap' : List (String × List String)) (cache' : ResolverCache),
      CacheBounded fs cache →
      visitWave cfg fs frontier visited relMap related cache =
        .ok (visited', relMap', related', cache') →
      ∃ Δ Δm,
        related' = related ++ Δ ∧
        relMap' = relMap ++ Δm ∧
        (∀ x, x ∈ visited → x ∈ visited') ∧
        (∀ x, x ∈ visited' → x ∈ visited ∨ x ∈ frontier) ∧
        (∀ x ∈ Δ, x ∈ cfg.global_deps ∨ ∃ p, PathOk fs p ∧ x = RPath.render p) ∧
        (Δ ≠ [] → ∃ f, f ∈ frontier ∧ f ∉ visited ∧ f ∈ visited') ∧
        CacheBounded fs cache' ∧
        (∀ e ∈ Δm,
          checkExcludePatterns cfg.global_exclude (strSplitOn '/' e.1) = true →
          e.2 = sortDedup cfg.global_deps) := by
  intro frontier
  induction frontier with
  | nil =>
    intro visited related relMap cache visited' related' relMap' cache' hcb hres
    simp only [visitWave, Except.ok.injEq, Prod.mk.injEq] at hres
    obtain ⟨h₁, h₂, h₃, h₄⟩ := hres
    subst h₁ h₂ h₃ h₄
    exact ⟨[], [], by simp, by simp, fun x h => h, fun x h => Or.inl h, by simp,
      by simp, hcb, by simp⟩
  | cons f rest ih =>
    intro visited related relMap cache visited' related' relMap' cache' hcb hres
    simp only [visitWave] at hres
    by_cases hv : visited.contains f = true
    · rw [if_pos hv] at hres
      obtain ⟨Δ, Δm, h₁, h₂, h₃, h₄, h₅, h₆, h₇, h₈⟩ :=
        ih visited related relMap cache visited' related' relMap' cache' hcb hres
      refine ⟨Δ, Δm, h₁, h₂, h₃, fun x hx => (h₄ x hx).imp_right (List.mem_cons_of_mem f),
        h₅, fun hne => ?_, h₇, h₈⟩
      obtain ⟨g, hg₁, hg₂, hg₃⟩ := h₆ hne
      exact ⟨g, List.mem_cons_of_mem _ hg₁, hg₂, hg₃⟩
    · rw [if_neg hv] at hres
      have hfnv : f ∉ visited := fun hx => hv (by simp [List.elem_iff, hx])
      cases hvf : visitFile cfg fs (strSplitOn '/' f) cache with
      | error e => rw [hvf] at hres; simp at hres
      | ok pr =>
        obtain ⟨rels, cache₁⟩ := pr
        rw [hvf] at hres
        simp only [] at hres
        obtain ⟨hrels, hcb₁⟩ := visitFile_bounded cfg fs _ cache rels cache₁ hcb hvf
        obtain ⟨Δ, Δm, h₁, h₂, h₃, h₄, h₅, h₆, h₇, h₈⟩ :=
          ih (f :: visited)
            (related ++ sortDedup (cfg.global_deps ++ rels.map RPath.render))
            (relMap ++ [(f, sortDedup (cfg.global_deps ++ rels.map RPath.render))])
            cache₁ visited' related' relMap' cache' hcb₁ hres
        refine ⟨sortDedup (cfg.global_deps ++ rels.map RPath.render) ++ Δ,
          (f, sortDedup (cfg.global_deps ++ rels.map RPath.render)) :: Δm,
          by rw [h₁, List.append_assoc], by rw [h₂]; simp,
          fun x hx => h₃ x (List.mem_cons_of_mem _ hx), ?_, ?_, ?_, h₇, ?_⟩
        · intro x hx
          rcases h₄ x hx with hx' | hx'
          · rcases List.mem_cons.mp hx' with h | h
            · exact Or.inr (h ▸ List.mem_cons_self f rest)
            · exact Or.inl h
          · exact Or.inr (List.mem_cons_of_mem _ hx')
        · intro x hx
          rcases List.mem_append.mp hx with hx | hx
          · have hx' := mem_sortDedup.mp hx
            rcases List.mem_append.mp hx' with hx' | hx'
            · exact Or.inl hx'
            · obtain ⟨p, hp, hpx⟩ := List.mem_map.mp hx'
              exact Or.inr ⟨p, hrels p hp, hpx.symm⟩
          · exact h₅ x hx
        · intro _
          exact ⟨f, List.mem_cons_self f rest, hfnv, h₃ f (List.mem_cons_self f visited)⟩
        · intro e he hexc
          rcases List.mem_cons.mp he with he | he
          · subst he
            simp only []
            by_cases hex : checkExcludePatterns cfg.global_exclude (strSplitOn '/' f) = true
            · have : rels = [] := by
                unfold visitFile at hvf
                rw [if_pos hex] at hvf
                cases hvf
                rfl
              rw [this]
              simp
            · exact absurd hexc hex
          · exact h₈ e he hexc

/-- The finite universe of file names graph construction can ever
touch: the initial frontier, the global deps, and the renderings of
every existing file and directory. -/
def graphUniverse (cfg : Config) (fs : RepoFS) (inputs : List String) : List String :=
  inputs ++ cfg.global_deps ++ fs.files.map RPath.render ++ fs.dirs.map RPath.render

/-- Wave iteration with fuel one beyond the unvisited-universe count
always returns: each continuing wave processes at least one new
universe file. -/
theorem VisitRecursivelyF_terminates_aux (cfg : Config) (fs : RepoFS) (U : List String)
    (hUdeps : ∀ x ∈ cfg.global_deps, x ∈ U)
    (hUfiles : ∀ p : RPath, PathOk fs p → RPath.render p ∈ U) :
    ∀ (μ : Nat) (frontier visited : List String)
      (relMap : List (String × List String)) (cache : ResolverCache),
      (U.filter fun x => !visited.contains x).length ≤ μ →
      (∀ f ∈ frontier, f ∈ U) →
      CacheBounded fs cache →
      ∃ r, VisitRecursivelyF cfg fs (μ + 1) frontier visited relMap cache = some r := by
  intro μ
  induction μ with
  | zero =>
    intro frontier visited relMap cache hμ hfr _
    have hvis : ∀ x ∈ U, x ∈ visited := by
      intro x hx
      by_contra hnx
      have hmem : x ∈ U.filter fun x => !visited.contains x :=
        List.mem_filter.mpr ⟨hx, by simp [List.elem_iff, hnx]⟩
      have hne : (U.filter fun x => !visited.contains x).length ≠ 0 := by
        intro h0
        rw [List.length_eq_zero] at h0
        rw [h0] at hmem
        exact absurd hmem (List.not_mem_nil x)
      omega
    refine ⟨.ok relMap, ?_⟩
    simp only [VisitRecursivelyF]
    rw [visitWave_all_visited cfg fs frontier visited [] [] relMap cache rfl
      (fun f hf => hvis f (hfr f hf))]
    rfl
  | succ n ih =>
    intro frontier visited relMap cache hμ hfr hcb
    simp only [VisitRecursivelyF]
    cases hwave : visitWave cfg fs frontier visited relMap [] cache with
    | error e => exact ⟨.error e, rfl⟩
    | ok st =>
      obtain ⟨visited', relMap', related, cache'⟩ := st
      simp only []
      by_cases hrel : related.isEmpty = true
      · rw [if_pos hrel]
        exact ⟨.ok relMap', rfl⟩
      · rw [if_neg hrel]
        obtain ⟨Δ, Δm, h₁, h₂, h₃, h₄, h₅, h₆, hcb', _⟩ :=
          visitWave_spec cfg fs frontier visited [] relMap cache
            visited' related relMap' cache' hcb hwave
        have hΔ : Δ ≠ [] := by
          intro he
          rw [h₁, he] at hrel
          simp at hrel
        obtain ⟨f, hf₁, hf₂, hf₃⟩ := h₆ hΔ
        have hmono : ∀ x, x ∈ f :: visited → x ∈ visited' := by
          intro x hx
          rcases List.mem_cons.mp hx with h | h
          · exact h ▸ hf₃
          · exact h₃ x h
        have hμ' : (U.filter fun x => !visited'.contains x).length ≤ n := by
          have hs := unvisited_strict U visited f (hfr f hf₁) hf₂
          have hm := unvisited_mono U (f :: visited) visited' hmono
          omega
        have hfr' : ∀ x ∈ sortDedup related, x ∈ U := by
          intro x hx
          have hx' := mem_sortDedup.mp hx
          rw [h₁] at hx'
          simp only [List.nil_append] at hx'
          rcases h₅ x hx' with h | ⟨p, hp, hpe⟩
          · exact hUdeps x h
          · exact hpe ▸ hUfiles p hp
        exact ih (sortDedup related) visited' relMap' cache' hμ' hfr' hcb'

/-- C9: graph construction terminates for every configuration,
filesystem and input list — the wave-by-wave expansion, with its
processed-set check, always reaches a wave whose accumulated relations
produce no unvisited file (or a fatal error, which also ends the run):
there is enough fuel for `VisitRecursivelyF` to return. -/
theorem graph_construction_terminates (cfg : Config) (fs : RepoFS)
    (inputs : List String) :
    ∃ fuel r, VisitRecursivelyF cfg fs fuel (sortDedup inputs) [] [] [] = some r := by
  obtain ⟨r, hr⟩ := VisitRecursivelyF_terminates_aux cfg fs
    (graphUniverse cfg fs (sortDedup inputs))
    (fun x hx => by
      unfold graphUniverse
      exact List.mem_append.mpr (Or.inl (List.mem_append.mpr (Or.inl
        (List.mem_append.mpr (Or.inr hx))))))
    (fun p hp => by
      unfold graphUniverse
      rcases hp with hp | hp
      · exact List.mem_append.mpr (Or.inl (List.mem_append.mpr (Or.inr
          (List.mem_map.mpr ⟨p, hp, rfl⟩))))
      · exact List.mem_append.mpr (Or.inr (List.mem_map.mpr ⟨p, hp, rfl⟩)))
    (graphUniverse cfg fs (sortDedup inputs)).length
    (sortDedup inputs) [] [] []
    (by simp)
    (fun f hf => by
      unfold graphUniverse
      exact List.mem_append.mpr (Or.inl (List.mem_append.mpr (Or.inl
        (List.mem_append.mpr (Or.inl hf))))))
    (fun k v h => by simp [cacheLookup] at h)
  exact ⟨(graphUniverse cfg fs (sortDedup inputs)).length + 1, r, hr⟩

/-! ### C10 — globally excluded files keep their global-deps entry -/

/-- The loop invariant: every relation-map entry for a globally
excluded file equals the sorted de-duplicated `global_deps`. -/
theorem VisitRecursivelyF_excluded_inv (cfg : Config) (fs : RepoFS) :
    ∀ (fuel : Nat) (frontier visited : List String)
      (relMap : List (String × List String)) (cache : ResolverCache)
      (relMapOut : List (String × List String)),
      CacheBounded fs cache →
      (∀ e ∈ relMap,
        checkExcludePatterns cfg.global_exclude (strSplitOn '/' e.1) = true →
        e.2 = sortDedup cfg.global_deps) →
      VisitRecursivelyF cfg fs fuel frontier visited relMap cache = some (.ok relMapOut) →
      ∀ e ∈ relMapOut,
        checkExcludePatterns cfg.global_exclude (strSplitOn '/' e.1) = true →
        e.2 = sortDedup cfg.global_deps := by
  intro fuel
  induction fuel with
  | zero =>
    intro frontier visited relMap cache relMapOut _ _ hres
    simp [VisitRecursivelyF] at hres
  | succ n ih =>
    intro frontier visited relMap cache relMapOut hcb hinv hres
    simp only [VisitRecursivelyF] at hres
    cases hwave : visitWave cfg fs frontier visited relMap [] cache with
    | error e => rw [hwave] at hres; simp at hres
    | ok st =>
      obtain ⟨visited', relMap', related, cache'⟩ := st
      rw [hwave] at hres
      simp only [] at hres
      obtain ⟨Δ, Δm, _, h₂, _, _, _, _, hcb', h₈⟩ :=
        visitWave_spec cfg fs frontier visited [] relMap cache
          visited' related relMap' cache' hcb hwave
      have hinv' : ∀ e ∈ relMap',
          checkExcludePatterns cfg.global_exclude (strSplitOn '/' e.1) = true →
          e.2 = sortDedup cfg.global_deps := by
        intro e he hexc
        rw [h₂] at he
        rcases List.mem_append.mp he with he | he
        · exact hinv e he hexc
        · exact h₈ e he hexc
      by_cases hrel : related.isEmpty = true
      · rw [if_pos hrel] at hres
        simp only [Option.some.injEq, Except.ok.injEq] at hres
        subst hres
        exact hinv'
      · rw [if_neg hrel] at hres
        exact ih (sortDedup related) visited' relMap' cache' relMapOut hcb' hinv' hres

/-- C10: a file matching a `global_exclude` pattern that is reached by
graph construction still receives a relation-map entry, and that entry
equals exactly the sorted, de-duplicated `global_deps` list: exclusion
skips the file's rules but neither removes the map entry nor strips the
seeded global dependencies. -/
theorem excluded_file_entry_is_global_deps (cfg : Config) (fs : RepoFS)
    (inputs : List String) (fuel : Nat) (relMapOut : List (String × List String))
    (f : String) (r : List String)
    (hrun : VisitRecursivelyF cfg fs fuel inputs [] [] [] = some (.ok relMapOut))
    (hmem : (f, r) ∈ relMapOut)
    (hexc : checkExcludePatterns cfg.global_exclude (strSplitOn '/' f) = true) :
    r = sortDedup cfg.global_deps :=
  VisitRecursivelyF_excluded_inv cfg fs fuel inputs [] [] []
    relMapOut (fun k v h => by simp [cacheLookup] at h) (by simp) hrun (f, r) hmem hexc

/-- The excluded-file scenario: `a.py` visits `b.pyc` through a rule,
`b.pyc` matches the `**/*.pyc` global exclusion. -/
def cfgExcluded : Config :=
  ⟨["a.py"], ["gd.txt"], ["**/*.pyc"], [],
   [("**/*.py", ⟨⟨["b.pyc"], [], [], false, [], []⟩, []⟩)]⟩

/-- The excluded-file scenario tree. -/
def fsExcluded : RepoFS :=
  ⟨[["a.py"], ["b.pyc"], ["gd.txt"]], [], fun _ => some "", fun _ _ => []⟩

/-- Witness for C10: in the scenario, the excluded `b.pyc` is reached,
receives an entry, and its entry is exactly `sortDedup global_deps`. -/
theorem excluded_file_entry_is_global_deps_witness :
    VisitRecursivelyF cfgExcluded fsExcluded 5 ["a.py"] [] [] [] =
      some (.ok [("a.py", ["b.pyc", "gd.txt"]), ("b.pyc", ["gd.txt"]),
        ("gd.txt", ["gd.txt"])]) ∧
    (("b.pyc", ["gd.txt"]) ∈
      [("a.py", ["b.pyc", "gd.txt"]), ("b.pyc", ["gd.txt"]), ("gd.txt", ["gd.txt"])]) ∧
    checkExcludePatterns cfgExcluded.global_exclude (strSplitOn '/' "b.pyc") = true ∧
    ["gd.txt"] = sortDedup cfgExcluded.global_deps :=
  ⟨by decide, by decide, by decide,
    excluded_file_entry_is_global_deps cfgExcluded fsExcluded ["a.py"] 5
      [("a.py", ["b.pyc", "gd.txt"]), ("b.pyc", ["gd.txt"]), ("gd.txt", ["gd.txt"])]
      "b.pyc" ["gd.txt"] (by decide) (by decide) (by decide)⟩

/-! ## C7 — determinism under enumeration and iteration reorderings

Setup: two runs over the same logical tree and configuration, where the
filesystem enumeration order (the order of `files`/`dirs`), the
iteration order over `path_rules`, and the iteration order over each
rule's `regex_rules` may differ.  The proof is in three layers:

* *cache transparency* — a resolver call from any cache whose entries
  agree with the from-scratch resolver returns the from-scratch value;
  hence every recorded relation list is independent of the resolver
  cache's history;
* *permutation invariance* — the from-scratch per-rule contributions
  are permutations of each other across the two runs;
* *lockstep loop coupling* — both runs therefore store identical
  (sorted, de-duplicated) relation lists wave by wave, and the final
  maps and digests coincide.
-/

/-- Two filesystem views of the same tree: same files, directories,
contents and regex engine, with possibly different enumeration
orders. -/
def FSEquiv (fs fs' : RepoFS) : Prop :=
  List.Perm fs.files fs'.files ∧ List.Perm fs.dirs fs'.dirs ∧
    fs.content = fs'.content ∧ fs.regexFindAll = fs'.regexFindAll

/-- Two presentations of the same path rule: same pattern, same
top-level actions, regex sub-rules in a possibly different iteration
order. -/
def RuleEquiv (a b : String × PathRule) : Prop :=
  a.1 = b.1 ∧ a.2.actions = b.2.actions ∧ List.Perm a.2.regex_rules b.2.regex_rules

/-- Two presentations of the same configuration: equal scalar-list
fields, path rules reordered and each rule's regex rules reordered. -/
def ConfigEquiv (cfg cfg' : Config) : Prop :=
  cfg.inputs = cfg'.inputs ∧ cfg.global_deps = cfg'.global_deps ∧
    cfg.global_exclude = cfg'.global_exclude ∧
    cfg.root_python_packages = cfg'.root_python_packages ∧
    ∃ mid, List.Perm cfg.path_rules mid ∧ List.Forall₂ RuleEquiv mid cfg'.path_rules

/-- A resolver cache is consistent when every entry holds the value the
from-scratch resolver computes. -/
def CacheConsistent (cfg : Config) (fs : RepoFS) (c : ResolverCache) : Prop :=
  ∀ k v, cacheLookup c k = some v →
    ∃ c₀, pythonResolve cfg fs k [] = .ok (v, c₀)

/-- The lazily-read file text buffer matches the file's content. -/
def FdOk (fs : RepoFS) (file : RPath) (fd : Option String) : Prop :=
  fd = none ∨ fd = fs.content file

/-- Membership respects permutation, at the `Bool` level. -/
theorem contains_eq_of_perm {α : Type} [BEq α] [LawfulBEq α] {l l' : List α}
    (h : List.Perm l l') (x : α) : l.contains x = l'.contains x := by
  by_cases hx : x ∈ l
  · simp [List.elem_iff, hx, h.mem_iff.mp hx]
  · have hx' : x ∉ l' := fun hh => hx (h.mem_iff.mpr hh)
    simp [List.elem_iff, hx, hx']

/-- Pointwise-permuted chunk lists have permuted concatenations. -/
theorem flatten_perm_of_forall₂ {α : Type} {l l' : List (List α)}
    (h : List.Forall₂ (fun a b => List.Perm a b) l l') :
    List.Perm l.flatten l'.flatten :=
  List.Perm.flatten_congr h

/-- Characterization of the accumulate-chunks folds: the fold succeeds
with `acc₀ ++ flatten chunks` exactly when every element's chunk
computation succeeds with the respective chunk. -/
theorem foldlM_chunks_iff {α β : Type} (g : α → Except String (List β))
    (F : List β → α → Except String (List β))
    (hF : ∀ acc x, F acc x =
      match g x with
      | .error e => .error e
      | .ok ch => .ok (acc ++ ch)) :
    ∀ (l : List α) (acc₀ out : List β),
      (l.foldlM F acc₀ = .ok out ↔
        ∃ chs, List.Forall₂ (fun x ch => g x = .ok ch) l chs ∧ out = acc₀ ++ chs.flatten) := by
  intro l
  induction l with
  | nil =>
    intro acc₀ out
    constructor
    · intro h
      simp only [List.foldlM_nil] at h
      cases h
      exact ⟨[], List.Forall₂.nil, by simp⟩
    · intro ⟨chs, hfa, hout⟩
      cases hfa
      simp only [List.foldlM_nil, List.flatten_nil, List.append_nil] at hout ⊢
      rw [hout]
      rfl
  | cons a l ih =>
    intro acc₀ out
    rw [List.foldlM_cons]
    constructor
    · intro h
      cases hg : g a with
      | error e =>
        rw [hF acc₀ a, hg] at h
        simp [Bind.bind, Except.bind] at h
      | ok ch =>
        rw [hF acc₀ a, hg] at h
        simp only [Bind.bind, Except.bind] at h
        obtain ⟨chs, hfa, hout⟩ := (ih (acc₀ ++ ch) out).mp h
        exact ⟨ch :: chs, List.Forall₂.cons hg hfa, by simp [hout]⟩
    · intro ⟨chs, hfa, hout⟩
      cases hfa with
      | cons hg hfa' =>
        rename_i ch chs'
        rw [hF acc₀ a, hg]
        simp only [Bind.bind, Except.bind]
        exact (ih (acc₀ ++ ch) out).mpr ⟨chs', hfa', by simp [hout]⟩

/-- Chunks are determined by their producer. -/
theorem forall₂_chunks_eq_map {α β : Type} (g : α → Except String (List β)) :
    ∀ {l : List α} {chs : List (List β)},
      List.Forall₂ (fun x ch => g x = .ok ch) l chs →
      chs = l.map fun x =>
        match g x with
        | .ok ch => ch
        | .error _ => [] := by
  intro l chs h
  induction h with
  | nil => rfl
  | cons hg _ ih =>
    rename_i a b l' chs'
    simp only [List.map_cons, ← ih, hg]

/-! ### Layer 1: the resolver — enumeration invariance and cache
transparency -/

theorem statSucceeds_congr {fs fs' : RepoFS} (h : FSEquiv fs fs') (p : RPath) :
    fs'.statSucceeds p = fs.statSucceeds p := by
  unfold RepoFS.statSucceeds
  rw [← contains_eq_of_perm h.1 p, ← contains_eq_of_perm h.2.1 p]

theorem statIsDir_congr {fs fs' : RepoFS} (h : FSEquiv fs fs') (p : RPath) :
    fs'.statIsDir p = fs.statIsDir p := by
  unfold RepoFS.statIsDir
  rw [← contains_eq_of_perm h.2.1 p]

theorem resolveOwnPaths_congr {fs fs' : RepoFS} (h : FSEquiv fs fs') (parts : RPath) :
    resolveOwnPaths fs' parts = resolveOwnPaths fs parts := by
  unfold resolveOwnPaths
  rw [statSucceeds_congr h, statSucceeds_congr h, statSucceeds_congr h,
    statSucceeds_congr h, statSucceeds_congr h]

theorem resolveFoundAny_congr {fs fs' : RepoFS} (h : FSEquiv fs fs') (parts : RPath) :
    resolveFoundAny fs' parts = resolveFoundAny fs parts := by
  unfold resolveFoundAny
  rw [statSucceeds_congr h, statSucceeds_congr h, statSucceeds_congr h,
    statSucceeds_congr h, statSucceeds_congr h, statIsDir_congr h]

/-- The resolver sees only stat results, so it is untouched by
enumeration reorderings. -/
theorem pythonResolveF_congr {cfg cfg' : Config} {fs fs' : RepoFS}
    (hroots : cfg.root_python_packages = cfg'.root_python_packages)
    (hfs : FSEquiv fs fs') :
    ∀ (fuel : Nat) (parts : RPath) (cache : ResolverCache),
      pythonResolveF cfg' fs' fuel parts cache = pythonResolveF cfg fs fuel parts cache := by
  intro fuel
  induction fuel with
  | zero => intro parts cache; rfl
  | succ n ih =>
    intro parts cache
    simp only [pythonResolveF]
    have hallow : pyModAllowed cfg' (strJoin "." parts) = pyModAllowed cfg (strJoin "." parts) := by
      unfold pyModAllowed
      rw [hroots]
    rw [hallow, resolveOwnPaths_congr hfs, resolveFoundAny_congr hfs, ih]

theorem cacheLookup_nil (k : RPath) : cacheLookup [] k = none := rfl

theorem cacheConsistent_cons {cfg : Config} {fs : RepoFS} {c : ResolverCache}
    {k : RPath} {v : List RPath} (h : CacheConsistent cfg fs c)
    (hv : ∃ c₀, pythonResolve cfg fs k [] = .ok (v, c₀)) :
    CacheConsistent cfg fs ((k, v) :: c) := by
  intro k' v' hlook
  rw [cacheLookup_cons] at hlook
  by_cases hk : (k == k') = true
  · rw [if_pos hk] at hlook
    cases hlook
    exact (beq_iff_eq.mp hk) ▸ hv
  · rw [if_neg hk] at hlook
    exact h k' v' hlook

/-- Cache transparency: from any consistent cache, the resolver returns
exactly the from-scratch value (or the from-scratch error), and leaves
a consistent cache. -/
theorem pythonResolveF_pure_spec (cfg : Config) (fs : RepoFS) :
    ∀ (fuel : Nat) (parts : RPath) (cache : ResolverCache),
      parts.length < fuel → CacheConsistent cfg fs cache →
      (∀ v c₀, pythonResolve cfg fs parts [] = .ok (v, c₀) →
        ∃ c', pythonResolveF cfg fs fuel parts cache = .ok (v, c') ∧
          CacheConsistent cfg fs c') ∧
      (∀ e, pythonResolve cfg fs parts [] = .error e →
        pythonResolveF cfg fs fuel parts cache = .error e) := by
  intro fuel
  induction fuel with
  | zero => intro parts cache h; omega
  | succ n ih =>
    intro parts cache hlen hcc
    have hpure := pythonResolve_eq cfg fs parts []
    rw [cacheLookup_nil] at hpure
    simp only [] at hpure
    cases hcl : cacheLookup cache parts with
    | some v₀ =>
      obtain ⟨c₀', hv₀⟩ := hcc parts v₀ hcl
      constructor
      · intro v c₀ hok
        rw [hv₀] at hok
        have hv : v₀ = v := by
          simpa using congrArg (fun x => match x with
            | Except.ok (p, _) => p
            | Except.error _ => []) hok
        refine ⟨cache, ?_, hcc⟩
        simp only [pythonResolveF, hcl]
        rw [hv]
      · intro e herr
        rw [hv₀] at herr
        cases herr
    | none =>
      simp only [pythonResolveF, hcl]
      by_cases hallow : (!pyModAllowed cfg (strJoin "." parts)) = true
      · rw [if_pos hallow] at hpure ⊢
        constructor
        · intro v c₀ hok
          rw [hpure] at hok
          simp only [Except.ok.injEq, Prod.mk.injEq] at hok
          obtain ⟨hv, hc⟩ := hok
          subst hv
          exact ⟨(parts, []) :: cache, rfl, cacheConsistent_cons hcc ⟨_, hpure⟩⟩
        · intro e herr
          rw [hpure] at herr
          cases herr
      · rw [if_neg hallow] at hpure ⊢
        by_cases hrel : strHasPrefix (strJoin "." parts) "." = true
        · rw [if_pos hrel] at hpure ⊢
          constructor
          · intro v c₀ hok
            rw [hpure] at hok
            cases hok
          · intro e herr
            rw [hpure] at herr
            cases herr
            rfl
        · rw [if_neg hrel] at hpure ⊢
          by_cases hrec : 2 ≤ parts.length ∧ resolveFoundAny fs parts = true
          · rw [if_pos hrec] at hpure ⊢
            have hdl : parts.dropLast.length < n := by
              simp only [List.length_dropLast]
              omega
            cases hsubp : pythonResolve cfg fs parts.dropLast [] with
            | error e =>
              rw [hsubp] at hpure
              have hsubc := (ih parts.dropLast cache hdl hcc).2 e hsubp
              rw [hsubc]
              constructor
              · intro v c₀ hok
                rw [hpure] at hok
                cases hok
              · intro e' herr
                rw [hpure] at herr
                cases herr
                rfl
            | ok pr =>
              obtain ⟨sub, c₀₁⟩ := pr
              rw [hsubp] at hpure
              obtain ⟨c', hsubc, hcc'⟩ := (ih parts.dropLast cache hdl hcc).1 sub c₀₁ hsubp
              rw [hsubc]
              constructor
              · intro v c₀ hok
                rw [hpure] at hok
                simp only [Except.ok.injEq, Prod.mk.injEq] at hok
                obtain ⟨hv, hc⟩ := hok
                subst hv
                exact ⟨(parts, resolveOwnPaths fs parts ++ sub) :: c', rfl,
                  cacheConsistent_cons hcc' ⟨_, hpure⟩⟩
              · intro e herr
                rw [hpure] at herr
                cases herr
          · rw [if_neg hrec] at hpure ⊢
            constructor
            · intro v c₀ hok
              rw [hpure] at hok
              simp only [Except.ok.injEq, Prod.mk.injEq] at hok
              obtain ⟨hv, hc⟩ := hok
              subst hv
              exact ⟨(parts, resolveOwnPaths fs parts) :: cache, rfl,
                cacheConsistent_cons hcc ⟨_, hpure⟩⟩
            · intro e herr
              rw [hpure] at herr
              cases herr

/-! ### Layer 2: per-rule contributions from a clean cache -/

/-- The relations one regex match contributes, computed from a clean
cache. -/
def pureMatchChunk (cfg : Config) (fs : RepoFS) (regex_actions : RuleActions)
    (file : RPath) (d : String) (mtch : List String) : Except String (List RPath) :=
  match applyActions cfg fs regex_actions file mtch (some d) [] with
  | .error e => .error e
  | .ok (rels, _, _) => .ok rels

/-- Chunk-accumulating step over the regex matches of one rule. -/
def matchChunkStep (cfg : Config) (fs : RepoFS) (ra : RuleActions) (file : RPath)
    (d : String) (acc : List RPath) (mtch : List String) : Except String (List RPath) :=
  match pureMatchChunk cfg fs ra file d mtch with
  | .error e => .error e
  | .ok ch => .ok (acc ++ ch)

/-- The relations one regex sub-rule contributes for a file, computed
from a clean cache. -/
def pureRegexChunk (cfg : Config) (fs : RepoFS) (file : RPath)
    (rr : String × RuleActions) : Except String (List RPath) :=
  if checkExcludePatterns rr.2.exclude file then .ok []
  else
    match fs.content file with
    | none => .error "error while reading python file"
    | some d =>
      (fs.regexFindAll rr.1 d).foldlM (matchChunkStep cfg fs rr.2 file d) []

/-- Chunk-accumulating step over the regex sub-rules of one path
rule. -/
def regexChunkStep (cfg : Config) (fs : RepoFS) (file : RPath)
    (acc : List RPath) (rr : String × RuleActions) : Except String (List RPath) :=
  match pureRegexChunk cfg fs file rr with
  | .error e => .error e
  | .ok ch => .ok (acc ++ ch)

/-- The relations one path rule contributes for a file, computed from a
clean cache. -/
def purePathChunk (cfg : Config) (fs : RepoFS) (file : RPath) (pr : String × PathRule) :
    Except String (List RPath) :=
  if globMatch pr.1 file then
    match applyActions cfg fs pr.2.actions file [] none [] with
    | .error e => .error e
    | .ok (rels, _, _) =>
      match pr.2.regex_rules.foldlM (regexChunkStep cfg fs file) [] with
      | .error e => .error e
      | .ok rch => .ok (rels ++ rch)
  else .ok []

/-- The import resolutions of a module list, from a clean cache. -/
def pureImports (cfg : Config) (fs : RepoFS) (mods : List String) :
    Except String (List RPath) :=
  mods.foldlM
    (fun acc module =>
      match pythonResolve cfg fs (strSplitOn '.' module) [] with
      | .error e => .error e
      | .ok (paths, _) => .ok (acc ++ paths)) []

/-- `applyActions` keeps an already-read file text. -/
theorem applyActions_fd_some (cfg : Config) (fs : RepoFS) (actions : RuleActions)
    (file : RPath) (regex_result : List String) (d : String) (cache : ResolverCache)
    (rels : List RPath) (fd' : Option String) (cache' : ResolverCache)
    (hres : applyActions cfg fs actions file regex_result (some d) cache =
      .ok (rels, fd', cache')) : fd' = some d := by
  unfold applyActions at hres
  by_cases hpy : (actions.visit_imported_python_modules
      || !actions.visit_python_all_submodules_for.isEmpty) = true
  · rw [if_pos hpy] at hres
    rw [show readFileData fs file (some d) = .ok d from rfl] at hres
    simp only [] at hres
    cases hsub : (applyOnTemplates regex_result
        actions.visit_python_all_submodules_for).foldlM
          (submoduleStep cfg fs (pythonParseImports d).2) [] with
    | error e => rw [hsub] at hres; simp at hres
    | ok subRels =>
      rw [hsub] at hres
      simp only [] at hres
      cases himp : (pythonParseImports d).1.foldlM (resolveImportsStep cfg fs)
          ([], cache) with
      | error e => rw [himp] at hres; simp at hres
      | ok st =>
        obtain ⟨importRels, cacheI⟩ := st
        rw [himp] at hres
        simp only [Except.ok.injEq, Prod.mk.injEq] at hres
        exact hres.2.1.symm
  · rw [if_neg hpy] at hres
    simp only [Except.ok.injEq, Prod.mk.injEq] at hres
    exact hres.2.1.symm

/-- `applyActions` keeps the file-text buffer faithful to the file's
content. -/
theorem applyActions_fdOk (cfg : Config) (fs : RepoFS) (actions : RuleActions)
    (file : RPath) (regex_result : List String) (fd : Option String)
    (cache : ResolverCache) (rels : List RPath) (fd' : Option String)
    (cache' : ResolverCache) (hfd : FdOk fs file fd)
    (hres : applyActions cfg fs actions file regex_result fd cache =
      .ok (rels, fd', cache')) : FdOk fs file fd' := by
  unfold applyActions at hres
  by_cases hpy : (actions.visit_imported_python_modules
      || !actions.visit_python_all_submodules_for.isEmpty) = true
  · rw [if_pos hpy] at hres
    cases hread : readFileData fs file fd with
    | error e => rw [hread] at hres; simp at hres
    | ok d =>
      have hd : fs.content file = some d := by
        rcases hfd with hfd | hfd
        · subst hfd
          unfold readFileData at hread
          cases hc : fs.content file with
          | none => rw [hc] at hread; cases hread
          | some d₀ => rw [hc] at hread; cases hread; rfl
        · rw [hfd] at hread
          unfold readFileData at hread
          cases hc : fs.content file with
          | none => rw [hc] at hread; cases hread
          | some d₀ =>
            rw [hc] at hread
            cases hread
            rfl
      rw [hread] at hres
      simp only [] at hres
      cases hsub : (applyOnTemplates regex_result
          actions.visit_python_all_submodules_for).foldlM
            (submoduleStep cfg fs (pythonParseImports d).2) [] with
      | error e => rw [hsub] at hres; simp at hres
      | ok subRels =>
        rw [hsub] at hres
        simp only [] at hres
        cases himp : (pythonParseImports d).1.foldlM (resolveImportsStep cfg fs)
            ([], cache) with
        | error e => rw [himp] at hres; simp at hres
        | ok st =>
          obtain ⟨importRels, cacheI⟩ := st
          rw [himp] at hres
          simp only [Except.ok.injEq, Prod.mk.injEq] at hres
          right
          rw [← hres.2.1, hd]
  · rw [if_neg hpy] at hres
    simp only [Except.ok.injEq, Prod.mk.injEq] at hres
    exact hres.2.1 ▸ hfd

/-- The resolutions of a single module from a clean cache (value part
only). -/
def pureModChunk (cfg : Config) (fs : RepoFS) (module : String) :
    Except String (List RPath) :=
  match pythonResolveModule cfg fs module [] with
  | .error e => .error e
  | .ok (paths, _) => .ok paths

/-- Import-fold transparency: from any consistent cache the import fold
appends exactly the clean-cache resolutions of the modules (and only
errors when a clean-cache resolution errors), leaving the cache
consistent. -/
theorem importsFold_pure_spec (cfg : Config) (fs : RepoFS) :
    ∀ (mods : List String) (acc : List RPath) (c : ResolverCache),
      CacheConsistent cfg fs c →
      (∀ out c', mods.foldlM (resolveImportsStep cfg fs) (acc, c) = .ok (out, c') →
        ∃ chs, List.Forall₂ (fun m ch => pureModChunk cfg fs m = .ok ch) mods chs ∧
          out = acc ++ chs.flatten ∧ CacheConsistent cfg fs c') ∧
      (∀ chs, List.Forall₂ (fun m ch => pureModChunk cfg fs m = .ok ch) mods chs →
        ∃ c', mods.foldlM (resolveImportsStep cfg fs) (acc, c) =
          .ok (acc ++ chs.flatten, c') ∧ CacheConsistent cfg fs c') := by
  intro mods
  induction mods with
  | nil =>
    intro acc c hcc
    constructor
    · intro out c' hres
      simp only [List.foldlM_nil] at hres
      cases hres
      exact ⟨[], List.Forall₂.nil, by simp, hcc⟩
    · intro chs hfa
      cases hfa
      refine ⟨c, ?_, hcc⟩
      simp only [List.foldlM_nil, List.flatten_nil, List.append_nil]
      rfl
  | cons m ms ih =>
    intro acc c hcc
    have hspec := pythonResolveF_pure_spec cfg fs
      ((strSplitOn '.' m).length + 1) (strSplitOn '.' m) c (by omega) hcc
    constructor
    · intro out c' hres
      simp only [List.foldlM_cons] at hres
      cases hpure : pythonResolve cfg fs (strSplitOn '.' m) [] with
      | error e =>
        have hstep : pythonResolveModule cfg fs m c = .error e :=
          hspec.2 e hpure
        rw [show resolveImportsStep cfg fs (acc, c) m =
          (match pythonResolveModule cfg fs m c with
           | .error e => .error e
           | .ok (paths, c₁) => .ok (acc ++ paths, c₁)) from rfl, hstep] at hres
        simp [bind, Except.bind] at hres
      | ok st =>
        obtain ⟨v, c₀⟩ := st
        obtain ⟨c₁, hc₁, hcc₁⟩ := hspec.1 v c₀ hpure
        rw [show resolveImportsStep cfg fs (acc, c) m =
          (match pythonResolveModule cfg fs m c with
           | .error e => .error e
           | .ok (paths, c₁) => .ok (acc ++ paths, c₁)) from rfl,
          show pythonResolveModule cfg fs m c =
            pythonResolveF cfg fs ((strSplitOn '.' m).length + 1)
              (strSplitOn '.' m) c from rfl, hc₁] at hres
        simp only [bind, Except.bind] at hres
        obtain ⟨chs, hfa, hout, hcc'⟩ := (ih (acc ++ v) c₁ hcc₁).1 out c'
          (by exact hres)
        refine ⟨v :: chs, List.Forall₂.cons ?_ hfa, ?_, hcc'⟩
        · unfold pureModChunk
          rw [show pythonResolveModule cfg fs m [] =
            pythonResolve cfg fs (strSplitOn '.' m) [] from rfl, hpure]
        · rw [hout, List.flatten_cons, List.append_assoc]
    · intro chs hfa
      cases hfa with
      | cons hm hms =>
        rename_i ch chsT
        unfold pureModChunk at hm
        cases hpure : pythonResolve cfg fs (strSplitOn '.' m) [] with
        | error e =>
          rw [show pythonResolveModule cfg fs m [] =
            pythonResolve cfg fs (strSplitOn '.' m) [] from rfl, hpure] at hm
          simp at hm
        | ok st =>
          obtain ⟨v, c₀⟩ := st
          rw [show pythonResolveModule cfg fs m [] =
            pythonResolve cfg fs (strSplitOn '.' m) [] from rfl, hpure] at hm
          simp only [Except.ok.injEq] at hm
          subst hm
          obtain ⟨c₁, hc₁, hcc₁⟩ := hspec.1 v c₀ hpure
          obtain ⟨c', hrun, hcc'⟩ := (ih (acc ++ v) c₁ hcc₁).2 chsT hms
          refine ⟨c', ?_, hcc'⟩
          simp only [List.foldlM_cons]
          rw [show resolveImportsStep cfg fs (acc, c) m =
            (match pythonResolveModule cfg fs m c with
             | .error e => .error e
             | .ok (paths, c₁) => .ok (acc ++ paths, c₁)) from rfl,
            show pythonResolveModule cfg fs m c =
              pythonResolveF cfg fs ((strSplitOn '.' m).length + 1)
                (strSplitOn '.' m) c from rfl, hc₁]
          simp only [bind, Except.bind]
          rw [hrun, List.flatten_cons, List.append_assoc]

/-- The empty cache is consistent. -/
theorem cacheConsistent_nil (cfg : Config) (fs : RepoFS) :
    CacheConsistent cfg fs [] := by
  intro k v h
  rw [cacheLookup_nil] at h
  cases h

/-- `applyActions` transparency: from a consistent cache it returns
exactly the relations and file text of a clean-cache run, and keeps the
cache consistent. -/
theorem applyActions_pure_spec (cfg : Config) (fs : RepoFS) (actions : RuleActions)
    (file : RPath) (regex_result : List String) (fd : Option String)
    (c : ResolverCache) (hcc : CacheConsistent cfg fs c)
    (rels : List RPath) (fd' : Option String) (c' : ResolverCache)
    (hres : applyActions cfg fs actions file regex_result fd c = .ok (rels, fd', c')) :
    CacheConsistent cfg fs c' ∧
    ∃ c₀, applyActions cfg fs actions file regex_result fd [] = .ok (rels, fd', c₀) := by
  unfold applyActions at hres
  by_cases hpy : (actions.visit_imported_python_modules
      || !actions.visit_python_all_submodules_for.isEmpty) = true
  · rw [if_pos hpy] at hres
    cases hread : readFileData fs file fd with
    | error e => rw [hread] at hres; simp at hres
    | ok d =>
      rw [hread] at hres
      simp only [] at hres
      cases hsub : (applyOnTemplates regex_result
          actions.visit_python_all_submodules_for).foldlM
            (submoduleStep cfg fs (pythonParseImports d).2) [] with
      | error e => rw [hsub] at hres; simp at hres
      | ok subRels =>
        rw [hsub] at hres
        simp only [] at hres
        cases himp : (pythonParseImports d).1.foldlM (resolveImportsStep cfg fs)
            ([], c) with
        | error e => rw [himp] at hres; simp at hres
        | ok st =>
          obtain ⟨importRels, cacheI⟩ := st
          rw [himp] at hres
          simp only [Except.ok.injEq, Prod.mk.injEq] at hres
          obtain ⟨chs, hfa, hout, hccI⟩ :=
            (importsFold_pure_spec cfg fs (pythonParseImports d).1 [] c hcc).1
              importRels cacheI himp
          obtain ⟨c₀, hrun₀, _⟩ :=
            (importsFold_pure_spec cfg fs (pythonParseImports d).1 [] []
              (cacheConsistent_nil cfg fs)).2 chs hfa
          refine ⟨hres.2.2 ▸ hccI, c₀, ?_⟩
          unfold applyActions
          rw [if_pos hpy, hread]
          simp only []
          rw [hsub]
          simp only []
          rw [hrun₀]
          simp only [Except.ok.injEq, Prod.mk.injEq]
          exact ⟨by rw [← hres.1, hout], hres.2.1, trivial⟩
  · rw [if_neg hpy] at hres
    simp only [Except.ok.injEq, Prod.mk.injEq] at hres
    refine ⟨hres.2.2 ▸ hcc, [], ?_⟩
    unfold applyActions
    rw [if_neg hpy]
    simp only [Except.ok.injEq, Prod.mk.injEq]
    exact ⟨hres.1, hres.2.1, trivial⟩

/-- `applyActions` transparency, converse direction: a clean-cache run
transports to any consistent cache, with the same relations and file
text. -/
theorem applyActions_pure_spec₂ (cfg : Config) (fs : RepoFS) (actions : RuleActions)
    (file : RPath) (regex_result : List String) (fd : Option String)
    (c : ResolverCache) (hcc : CacheConsistent cfg fs c)
    (rels : List RPath) (fd' : Option String) (c₀ : ResolverCache)
    (hres : applyActions cfg fs actions file regex_result fd [] = .ok (rels, fd', c₀)) :
    ∃ c', applyActions cfg fs actions file regex_result fd c = .ok (rels, fd', c') ∧
      CacheConsistent cfg fs c' := by
  unfold applyActions at hres
  by_cases hpy : (actions.visit_imported_python_modules
      || !actions.visit_python_all_submodules_for.isEmpty) = true
  · rw [if_pos hpy] at hres
    cases hread : readFileData fs file fd with
    | error e => rw [hread] at hres; simp at hres
    | ok d =>
      rw [hread] at hres
      simp only [] at hres
      cases hsub : (applyOnTemplates regex_result
          actions.visit_python_all_submodules_for).foldlM
            (submoduleStep cfg fs (pythonParseImports d).2) [] with
      | error e => rw [hsub] at hres; simp at hres
      | ok subRels =>
        rw [hsub] at hres
        simp only [] at hres
        cases himp : (pythonParseImports d).1.foldlM (resolveImportsStep cfg fs)
            ([], ([] : ResolverCache)) with
        | error e => rw [himp] at hres; simp at hres
        | ok st =>
          obtain ⟨importRels, cache₀⟩ := st
          rw [himp] at hres
          simp only [Except.ok.injEq, Prod.mk.injEq] at hres
          obtain ⟨chs, hfa, hout, _⟩ :=
            (importsFold_pure_spec cfg fs (pythonParseImports d).1 [] []
              (cacheConsistent_nil cfg fs)).1 importRels cache₀ himp
          obtain ⟨c', hrun, hcc'⟩ :=
            (importsFold_pure_spec cfg fs (pythonParseImports d).1 [] c hcc).2 chs hfa
          refine ⟨c', ?_, hcc'⟩
          unfold applyActions
          rw [if_pos hpy, hread]
          simp only []
          rw [hsub]
          simp only []
          rw [hrun]
          simp only [Except.ok.injEq, Prod.mk.injEq]
          exact ⟨by rw [← hres.1, hout], hres.2.1, trivial⟩
  · rw [if_neg hpy] at hres
    simp only [Except.ok.injEq, Prod.mk.injEq] at hres
    refine ⟨c, ?_, hcc⟩
    unfold applyActions
    rw [if_neg hpy]
    simp only [Except.ok.injEq, Prod.mk.injEq]
    exact ⟨hres.1, hres.2.1, trivial⟩

/-- Match-loop transparency: with the file text in hand and a
consistent cache, the fold over the regex matches appends exactly the
per-match clean-cache chunks (in both directions). -/
theorem matchFold_pure_spec (cfg : Config) (fs : RepoFS) (ra : RuleActions)
    (file : RPath) (d : String) :
    ∀ (ms : List (List String)) (acc : List RPath) (c : ResolverCache),
      CacheConsistent cfg fs c →
      (∀ out fd'' c'',
        ms.foldlM (regexMatchStep cfg fs ra file) (acc, some d, c) = .ok (out, fd'', c'') →
        ∃ chs, List.Forall₂ (fun m ch => pureMatchChunk cfg fs ra file d m = .ok ch) ms chs ∧
          out = acc ++ chs.flatten ∧ fd'' = some d ∧ CacheConsistent cfg fs c'') ∧
      (∀ chs, List.Forall₂ (fun m ch => pureMatchChunk cfg fs ra file d m = .ok ch) ms chs →
        ∃ c'', ms.foldlM (regexMatchStep cfg fs ra file) (acc, some d, c) =
          .ok (acc ++ chs.flatten, some d, c'') ∧ CacheConsistent cfg fs c'') := by
  intro ms
  induction ms with
  | nil =>
    intro acc c hcc
    constructor
    · intro out fd'' c'' hres
      simp only [List.foldlM_nil] at hres
      cases hres
      exact ⟨[], List.Forall₂.nil, by simp, rfl, hcc⟩
    · intro chs hfa
      cases hfa
      refine ⟨c, ?_, hcc⟩
      simp only [List.foldlM_nil, List.flatten_nil, List.append_nil]
      rfl
  | cons m ms ih =>
    intro acc c hcc
    constructor
    · intro out fd'' c'' hres
      simp only [List.foldlM_cons] at hres
      cases happ : applyActions cfg fs ra file m (some d) c with
      | error e =>
        rw [show regexMatchStep cfg fs ra file (acc, some d, c) m =
          (match applyActions cfg fs ra file m (some d) c with
           | .error e => .error e
           | .ok (rels, fd, c₁) => .ok (acc ++ rels, fd, c₁)) from rfl, happ] at hres
        simp [bind, Except.bind] at hres
      | ok st =>
        obtain ⟨rels, fd₁, c₁⟩ := st
        have hfd₁ : fd₁ = some d :=
          applyActions_fd_some cfg fs ra file m d c rels fd₁ c₁ happ
        subst hfd₁
        obtain ⟨hcc₁, c₀, happ₀⟩ :=
          applyActions_pure_spec cfg fs ra file m (some d) c hcc rels (some d) c₁ happ
        rw [show regexMatchStep cfg fs ra file (acc, some d, c) m =
          (match applyActions cfg fs ra file m (some d) c with
           | .error e => .error e
           | .ok (rels, fd, c₁) => .ok (acc ++ rels, fd, c₁)) from rfl, happ] at hres
        simp only [bind, Except.bind] at hres
        obtain ⟨chs, hfa, hout, hfd, hcc''⟩ :=
          (ih (acc ++ rels) c₁ hcc₁).1 out fd'' c'' hres
        refine ⟨rels :: chs, List.Forall₂.cons ?_ hfa, ?_, hfd, hcc''⟩
        · unfold pureMatchChunk
          rw [happ₀]
        · rw [hout, List.flatten_cons, List.append_assoc]
    · intro chs hfa
      cases hfa with
      | cons hm hms =>
        rename_i ch chsT
        unfold pureMatchChunk at hm
        cases happ₀ : applyActions cfg fs ra file m (some d) [] with
        | error e => rw [happ₀] at hm; simp at hm
        | ok st =>
          obtain ⟨rels, fdE, cE⟩ := st
          rw [happ₀] at hm
          simp only [Except.ok.injEq] at hm
          subst hm
          have hfdE : fdE = some d :=
            applyActions_fd_some cfg fs ra file m d [] rels fdE cE happ₀
          subst hfdE
          obtain ⟨c₁, happ, hcc₁⟩ :=
            applyActions_pure_spec₂ cfg fs ra file m (some d) c hcc rels (some d) cE happ₀
          obtain ⟨c'', hrun, hcc''⟩ := (ih (acc ++ rels) c₁ hcc₁).2 chsT hms
          refine ⟨c'', ?_, hcc''⟩
          simp only [List.foldlM_cons]
          rw [show regexMatchStep cfg fs ra file (acc, some d, c) m =
            (match applyActions cfg fs ra file m (some d) c with
             | .error e => .error e
             | .ok (rels, fd, c₁) => .ok (acc ++ rels, fd, c₁)) from rfl, happ]
          simp only [bind, Except.bind]
          rw [hrun, List.flatten_cons, List.append_assoc]

/-- Under a faithful file-text buffer, `readFileData` returns exactly
the file's content. -/
theorem readFileData_ok_iff (fs : RepoFS) (file : RPath) (fd : Option String)
    (d : String) (hfd : FdOk fs file fd) :
    readFileData fs file fd = .ok d ↔ fs.content file = some d := by
  rcases hfd with hfd | hfd
  · subst hfd
    unfold readFileData
    cases hc : fs.content file with
    | none => simp
    | some d₀ => simp
  · rw [hfd]
    unfold readFileData
    cases hc : fs.content file with
    | none => simp
    | some d₀ => simp

/-- Regex-rule-loop transparency: with a faithful file-text buffer and
a consistent cache, the loop appends exactly the per-rule clean-cache
chunks (in both directions). -/
theorem visitRegexRules_pure_spec (cfg : Config) (fs : RepoFS) (file : RPath) :
    ∀ (rules : List (String × RuleActions)) (fd : Option String)
      (c : ResolverCache) (acc : List RPath),
      FdOk fs file fd → CacheConsistent cfg fs c →
      (∀ out fd' c', visitRegexRules cfg fs file rules fd c acc = .ok (out, fd', c') →
        ∃ chs, List.Forall₂ (fun rr ch => pureRegexChunk cfg fs file rr = .ok ch) rules chs ∧
          out = acc ++ chs.flatten ∧ FdOk fs file fd' ∧ CacheConsistent cfg fs c') ∧
      (∀ chs, List.Forall₂ (fun rr ch => pureRegexChunk cfg fs file rr = .ok ch) rules chs →
        ∃ fd' c', visitRegexRules cfg fs file rules fd c acc =
          .ok (acc ++ chs.flatten, fd', c') ∧ FdOk fs file fd' ∧
          CacheConsistent cfg fs c') := by
  intro rules
  induction rules with
  | nil =>
    intro fd c acc hfd hcc
    constructor
    · intro out fd' c' hres
      cases hres
      exact ⟨[], List.Forall₂.nil, by simp, hfd, hcc⟩
    · intro chs hfa
      cases hfa
      exact ⟨fd, c, by simp [visitRegexRules], hfd, hcc⟩
  | cons rr rest ih =>
    obtain ⟨pat, ra⟩ := rr
    intro fd c acc hfd hcc
    constructor
    · intro out fd' c' hres
      by_cases hexc : checkExcludePatterns ra.exclude file = true
      · rw [show visitRegexRules cfg fs file ((pat, ra) :: rest) fd c acc =
          (if checkExcludePatterns ra.exclude file then
            visitRegexRules cfg fs file rest fd c acc
          else
            match readFileData fs file fd with
            | .error e => .error e
            | .ok d =>
              match (fs.regexFindAll pat d).foldlM (regexMatchStep cfg fs ra file)
                  (acc, some d, c) with
              | .error e => .error e
              | .ok (acc', fd₁, c₁) =>
                visitRegexRules cfg fs file rest fd₁ c₁ acc') from rfl,
          if_pos hexc] at hres
        obtain ⟨chs, hfa, hout, hfd', hcc'⟩ := (ih fd c acc hfd hcc).1 out fd' c' hres
        refine ⟨[] :: chs, List.Forall₂.cons ?_ hfa, ?_, hfd', hcc'⟩
        · unfold pureRegexChunk
          rw [if_pos hexc]
        · rw [hout, List.flatten_cons, List.nil_append]
      · rw [show visitRegexRules cfg fs file ((pat, ra) :: rest) fd c acc =
          (if checkExcludePatterns ra.exclude file then
            visitRegexRules cfg fs file rest fd c acc
          else
            match readFileData fs file fd with
            | .error e => .error e
            | .ok d =>
              match (fs.regexFindAll pat d).foldlM (regexMatchStep cfg fs ra file)
                  (acc, some d, c) with
              | .error e => .error e
              | .ok (acc', fd₁, c₁) =>
                visitRegexRules cfg fs file rest fd₁ c₁ acc') from rfl,
          if_neg hexc] at hres
        cases hread : readFileData fs file fd with
        | error e => rw [hread] at hres; simp at hres
        | ok d =>
          have hcontent : fs.content file = some d :=
            (readFileData_ok_iff fs file fd d hfd).mp hread
          rw [hread] at hres
          simp only [] at hres
          cases hfold : (fs.regexFindAll pat d).foldlM (regexMatchStep cfg fs ra file)
              (acc, some d, c) with
          | error e => rw [hfold] at hres; simp at hres
          | ok st =>
            obtain ⟨acc', fd₁, c₁⟩ := st
            rw [hfold] at hres
            simp only [] at hres
            obtain ⟨chsm, hfam, hacc', hfd₁, hcc₁⟩ :=
              (matchFold_pure_spec cfg fs ra file d (fs.regexFindAll pat d) acc c hcc).1
                acc' fd₁ c₁ hfold
            subst hfd₁
            obtain ⟨chs, hfa, hout, hfd', hcc'⟩ :=
              (ih (some d) c₁ acc' (Or.inr hcontent.symm) hcc₁).1 out fd' c' hres
            refine ⟨chsm.flatten :: chs, List.Forall₂.cons ?_ hfa, ?_, hfd', hcc'⟩
            · unfold pureRegexChunk
              rw [if_neg hexc, hcontent]
              simp only []
              exact (foldlM_chunks_iff (pureMatchChunk cfg fs ra file d)
                (matchChunkStep cfg fs ra file d)
                (fun a x => by
                  unfold matchChunkStep
                  cases pureMatchChunk cfg fs ra file d x <;> rfl)
                (fs.regexFindAll pat d) [] chsm.flatten).mpr
                ⟨chsm, hfam, by simp⟩
            · rw [hout, hacc', List.flatten_cons, List.append_assoc]
    · intro chs hfa
      cases hfa with
      | cons hch hrest =>
        rename_i ch chsT
        unfold pureRegexChunk at hch
        by_cases hexc : checkExcludePatterns ra.exclude file = true
        · rw [if_pos hexc] at hch
          simp only [Except.ok.injEq] at hch
          obtain ⟨fd', c', hrun, hfd', hcc'⟩ := (ih fd c acc hfd hcc).2 chsT hrest
          refine ⟨fd', c', ?_, hfd', hcc'⟩
          rw [show visitRegexRules cfg fs file ((pat, ra) :: rest) fd c acc =
            (if checkExcludePatterns ra.exclude file then
              visitRegexRules cfg fs file rest fd c acc
            else
              match readFileData fs file fd with
              | .error e => .error e
              | .ok d =>
                match (fs.regexFindAll pat d).foldlM (regexMatchStep cfg fs ra file)
                    (acc, some d, c) with
                | .error e => .error e
                | .ok (acc', fd₁, c₁) =>
                  visitRegexRules cfg fs file rest fd₁ c₁ acc') from rfl,
            if_pos hexc, hrun, ← hch, List.flatten_cons, List.nil_append]
        · rw [if_neg hexc] at hch
          cases hcontent : fs.content file with
          | none => rw [hcontent] at hch; simp at hch
          | some d =>
            rw [hcontent] at hch
            simp only [] at hch
            obtain ⟨chsm, hfam, hch'⟩ :=
              (foldlM_chunks_iff (pureMatchChunk cfg fs ra file d)
                (matchChunkStep cfg fs ra file d)
                (fun a x => by
                  unfold matchChunkStep
                  cases pureMatchChunk cfg fs ra file d x <;> rfl)
                (fs.regexFindAll pat d) [] ch).mp hch
            simp only [List.nil_append] at hch'
            obtain ⟨c₁, hfold, hcc₁⟩ :=
              (matchFold_pure_spec cfg fs ra file d (fs.regexFindAll pat d) acc c hcc).2
                chsm hfam
            obtain ⟨fd', c', hrun, hfd', hcc'⟩ :=
              (ih (some d) c₁ (acc ++ chsm.flatten) (Or.inr hcontent.symm) hcc₁).2
                chsT hrest
            refine ⟨fd', c', ?_, hfd', hcc'⟩
            rw [show visitRegexRules cfg fs file ((pat, ra) :: rest) fd c acc =
              (if checkExcludePatterns ra.exclude file then
                visitRegexRules cfg fs file rest fd c acc
              else
                match readFileData fs file fd with
                | .error e => .error e
                | .ok d =>
                  match (fs.regexFindAll pat d).foldlM (regexMatchStep cfg fs ra file)
                      (acc, some d, c) with
                  | .error e => .error e
                  | .ok (acc', fd₁, c₁) =>
                    visitRegexRules cfg fs file rest fd₁ c₁ acc') from rfl,
              if_neg hexc,
              (readFileData_ok_iff fs file fd d hfd).mpr hcontent]
            simp only []
            rw [hfold]
            simp only []
            rw [hrun, hch', List.flatten_cons, List.append_assoc]

/-- Path-rule-loop transparency: from a consistent cache, the loop over
the path rules appends exactly the per-rule clean-cache chunks (in both
directions). -/
theorem visitPathRules_pure_spec (cfg : Config) (fs : RepoFS) (file : RPath) :
    ∀ (rules : List (String × PathRule)) (c : ResolverCache) (acc : List RPath),
      CacheConsistent cfg fs c →
      (∀ out c', visitPathRules cfg fs file rules c acc = .ok (out, c') →
        ∃ chs, List.Forall₂ (fun pr ch => purePathChunk cfg fs file pr = .ok ch) rules chs ∧
          out = acc ++ chs.flatten ∧ CacheConsistent cfg fs c') ∧
      (∀ chs, List.Forall₂ (fun pr ch => purePathChunk cfg fs file pr = .ok ch) rules chs →
        ∃ c', visitPathRules cfg fs file rules c acc = .ok (acc ++ chs.flatten, c') ∧
          CacheConsistent cfg fs c') := by
  intro rules
  induction rules with
  | nil =>
    intro c acc hcc
    constructor
    · intro out c' hres
      cases hres
      exact ⟨[], List.Forall₂.nil, by simp, hcc⟩
    · intro chs hfa
      cases hfa
      exact ⟨c, by simp [visitPathRules], hcc⟩
  | cons pr rest ih =>
    obtain ⟨pat, rule⟩ := pr
    intro c acc hcc
    constructor
    · intro out c' hres
      by_cases hg : globMatch pat file = true
      · rw [show visitPathRules cfg fs file ((pat, rule) :: rest) c acc =
          (if globMatch pat file then
            match applyActions cfg fs rule.actions file [] none c with
            | .error e => .error e
            | .ok (rels, fd, cache₁) =>
              match visitRegexRules cfg fs file rule.regex_rules fd cache₁ (acc ++ rels) with
              | .error e => .error e
              | .ok (acc', _, cache₂) => visitPathRules cfg fs file rest cache₂ acc'
          else visitPathRules cfg fs file rest c acc) from rfl, if_pos hg] at hres
        cases happ : applyActions cfg fs rule.actions file [] none c with
        | error e => rw [happ] at hres; simp at hres
        | ok st =>
          obtain ⟨rels, fd₁, c₁⟩ := st
          rw [happ] at hres
          simp only [] at hres
          obtain ⟨hcc₁, c₀, happ₀⟩ :=
            applyActions_pure_spec cfg fs rule.actions file [] none c hcc
              rels fd₁ c₁ happ
          have hfd₁ : FdOk fs file fd₁ :=
            applyActions_fdOk cfg fs rule.actions file [] none c rels fd₁ c₁
              (Or.inl rfl) happ
          cases hreg : visitRegexRules cfg fs file rule.regex_rules fd₁ c₁
              (acc ++ rels) with
          | error e => rw [hreg] at hres; simp at hres
          | ok st₂ =>
            obtain ⟨acc', fd₂, c₂⟩ := st₂
            rw [hreg] at hres
            simp only [] at hres
            obtain ⟨chsR, hfaR, hacc', _, hcc₂⟩ :=
              (visitRegexRules_pure_spec cfg fs file rule.regex_rules fd₁ c₁
                (acc ++ rels) hfd₁ hcc₁).1 acc' fd₂ c₂ hreg
            obtain ⟨chs, hfa, hout, hcc'⟩ := (ih c₂ acc' hcc₂).1 out c' hres
            refine ⟨(rels ++ chsR.flatten) :: chs, List.Forall₂.cons ?_ hfa, ?_, hcc'⟩
            · unfold purePathChunk
              rw [if_pos hg, happ₀]
              simp only []
              rw [(foldlM_chunks_iff (pureRegexChunk cfg fs file)
                (regexChunkStep cfg fs file)
                (fun a x => by
                  unfold regexChunkStep
                  cases pureRegexChunk cfg fs file x <;> rfl)
                rule.regex_rules [] chsR.flatten).mpr ⟨chsR, hfaR, by simp⟩]
            · rw [hout, hacc', List.flatten_cons]
              simp [List.append_assoc]
      · rw [show visitPathRules cfg fs file ((pat, rule) :: rest) c acc =
          (if globMatch pat file then
            match applyActions cfg fs rule.actions file [] none c with
            | .error e => .error e
            | .ok (rels, fd, cache₁) =>
              match visitRegexRules cfg fs file rule.regex_rules fd cache₁ (acc ++ rels) with
              | .error e => .error e
              | .ok (acc', _, cache₂) => visitPathRules cfg fs file rest cache₂ acc'
          else visitPathRules cfg fs file rest c acc) from rfl, if_neg hg] at hres
        obtain ⟨chs, hfa, hout, hcc'⟩ := (ih c acc hcc).1 out c' hres
        refine ⟨[] :: chs, List.Forall₂.cons ?_ hfa, ?_, hcc'⟩
        · unfold purePathChunk
          rw [if_neg hg]
        · rw [hout, List.flatten_cons, List.nil_append]
    · intro chs hfa
      cases hfa with
      | cons hch hrest =>
        rename_i ch chsT
        unfold purePathChunk at hch
        by_cases hg : globMatch pat file = true
        · rw [if_pos hg] at hch
          cases happ₀ : applyActions cfg fs rule.actions file [] none [] with
          | error e => rw [happ₀] at hch; simp at hch
          | ok st =>
            obtain ⟨rels, fdE, cE⟩ := st
            rw [happ₀] at hch
            simp only [] at hch
            cases hrfold : rule.regex_rules.foldlM (regexChunkStep cfg fs file) [] with
            | error e => rw [hrfold] at hch; simp at hch
            | ok rch =>
              rw [hrfold] at hch
              simp only [Except.ok.injEq] at hch
              obtain ⟨chsR, hfaR, hrch⟩ :=
                (foldlM_chunks_iff (pureRegexChunk cfg fs file)
                  (regexChunkStep cfg fs file)
                  (fun a x => by
                    unfold regexChunkStep
                    cases pureRegexChunk cfg fs file x <;> rfl)
                  rule.regex_rules [] rch).mp hrfold
              simp only [List.nil_append] at hrch
              obtain ⟨c₁, happ, hcc₁⟩ :=
                applyActions_pure_spec₂ cfg fs rule.actions file [] none c hcc
                  rels fdE cE happ₀
              have hfdE : FdOk fs file fdE :=
                applyActions_fdOk cfg fs rule.actions file [] none c rels fdE c₁
                  (Or.inl rfl) happ
              obtain ⟨fd₂, c₂, hreg, _, hcc₂⟩ :=
                (visitRegexRules_pure_spec cfg fs file rule.regex_rules fdE c₁
                  (acc ++ rels) hfdE hcc₁).2 chsR hfaR
              obtain ⟨c', hrun, hcc'⟩ := (ih c₂ (acc ++ rels ++ chsR.flatten) hcc₂).2
                chsT hrest
              refine ⟨c', ?_, hcc'⟩
              rw [show visitPathRules cfg fs file ((pat, rule) :: rest) c acc =
                (if globMatch pat file then
                  match applyActions cfg fs rule.actions file [] none c with
                  | .error e => .error e
                  | .ok (rels, fd, cache₁) =>
                    match visitRegexRules cfg fs file rule.regex_rules fd cache₁
                        (acc ++ rels) with
                    | .error e => .error e
                    | .ok (acc', _, cache₂) => visitPathRules cfg fs file rest cache₂ acc'
                else visitPathRules cfg fs file rest c acc) from rfl, if_pos hg, happ]
              simp only []
              rw [hreg]
              simp only []
              rw [hrun, ← hch, hrch, List.flatten_cons]
              simp [List.append_assoc]
        · rw [if_neg hg] at hch
          simp only [Except.ok.injEq] at hch
          obtain ⟨c', hrun, hcc'⟩ := (ih c acc hcc).2 chsT hrest
          refine ⟨c', ?_, hcc'⟩
          rw [show visitPathRules cfg fs file ((pat, rule) :: rest) c acc =
            (if globMatch pat file then
              match applyActions cfg fs rule.actions file [] none c with
              | .error e => .error e
              | .ok (rels, fd, cache₁) =>
                match visitRegexRules cfg fs file rule.regex_rules fd cache₁
                    (acc ++ rels) with
                | .error e => .error e
                | .ok (acc', _, cache₂) => visitPathRules cfg fs file rest cache₂ acc'
            else visitPathRules cfg fs file rest c acc) from rfl, if_neg hg, hrun,
            ← hch, List.flatten_cons, List.nil_append]

/-- `foldlM` only depends on the step function extensionally. -/
theorem foldlM_congr {σ α : Type} (F G : σ → α → Except String σ)
    (h : ∀ b a, F b a = G b a) :
    ∀ (l : List α) (init : σ), l.foldlM F init = l.foldlM G init := by
  intro l
  induction l with
  | nil => intro init; rfl
  | cons a l ih =>
    intro init
    simp only [List.foldlM_cons, h init a]
    cases G init a with
    | error e => rfl
    | ok b => simp only [bind, Except.bind]; exact ih b

/-- `flatMap` respects pointwise permutation of the chunks. -/
theorem flatMap_perm_of_pointwise {α β : Type} (f g : α → List β)
    (h : ∀ a, List.Perm (f a) (g a)) :
    ∀ l : List α, List.Perm (l.flatMap f) (l.flatMap g) := by
  intro l
  induction l with
  | nil => exact List.Perm.refl _
  | cons a l ih =>
    simp only [List.flatMap_cons]
    exact (h a).append ih

/-- Transport an all-chunks-succeed family along a pointwise
up-to-permutation simulation of the chunk computation. -/
theorem forall₂_chunks_exists_perm {α β : Type}
    (g g' : α → Except String (List β))
    (hsim : ∀ x ch, g x = .ok ch → ∃ ch', g' x = .ok ch' ∧ List.Perm ch' ch) :
    ∀ {l : List α} {chs : List (List β)},
      List.Forall₂ (fun x ch => g x = .ok ch) l chs →
      ∃ chs', List.Forall₂ (fun x ch => g' x = .ok ch) l chs' ∧
        List.Forall₂ (fun a b => List.Perm a b) chs' chs := by
  intro l chs h
  induction h with
  | nil => exact ⟨[], List.Forall₂.nil, List.Forall₂.nil⟩
  | cons hx _ ih =>
    obtain ⟨chs', hfa', hperm⟩ := ih
    obtain ⟨ch', hch', hp⟩ := hsim _ _ hx
    exact ⟨ch' :: chs', List.Forall₂.cons hch' hfa', List.Forall₂.cons hp hperm⟩

/-- Directory-enumeration reorderings permute every glob's result
list. -/
theorem globFiles_perm {fs fs' : RepoFS} (hfs : FSEquiv fs fs')
    (dir : RPath) (pattern : List String) :
    List.Perm (globFiles fs' dir pattern) (globFiles fs dir pattern) := by
  unfold globFiles
  exact (hfs.1.symm).filterMap _

/-- `readFileData` sees only file contents. -/
theorem readFileData_congr {fs fs' : RepoFS} (hc : fs.content = fs'.content)
    (file : RPath) (fd : Option String) :
    readFileData fs' file fd = readFileData fs file fd := by
  cases fd with
  | some d => rfl
  | none =>
    unfold readFileData
    rw [hc]

/-- `submoduleTarget` sees only the configured root packages. -/
theorem submoduleTarget_congr {cfg cfg' : Config}
    (hroots : cfg.root_python_packages = cfg'.root_python_packages)
    (idents : List (String × String)) (mod_name : String) :
    submoduleTarget cfg' idents mod_name = submoduleTarget cfg idents mod_name := by
  unfold submoduleTarget
  rw [hroots]

/-- The glob result of one `visit_python_all_submodules_for` target. -/
def submoduleChunk (cfg : Config) (fs : RepoFS) (idents : List (String × String))
    (mod_name : String) : Except String (List RPath) :=
  match submoduleTarget cfg idents mod_name with
  | .error e => .error e
  | .ok full_mod_name =>
    .ok (globFiles fs [] (strSplitOn '.' full_mod_name ++ ["**", "*.py"]))

/-- `applyActions` cross-machine simulation: under a directory-order
reshuffle of the tree (and the same root packages), a clean-cache run
is reproduced with a permuted relation list and the same file text. -/
theorem applyActions_pure_congr (cfg cfg' : Config) (fs fs' : RepoFS)
    (hroots : cfg.root_python_packages = cfg'.root_python_packages)
    (hfs : FSEquiv fs fs') (actions : RuleActions) (file : RPath)
    (regex_result : List String) (fd : Option String)
    (rels : List RPath) (fd' : Option String) (c₀ : ResolverCache)
    (hres : applyActions cfg fs actions file regex_result fd [] = .ok (rels, fd', c₀)) :
    ∃ rels' c₀',
      applyActions cfg' fs' actions file regex_result fd [] = .ok (rels', fd', c₀') ∧
      List.Perm rels' rels := by
  have hcontent : fs.content = fs'.content := hfs.2.2.1
  unfold applyActions at hres ⊢
  by_cases hpy : (actions.visit_imported_python_modules
      || !actions.visit_python_all_submodules_for.isEmpty) = true
  · rw [if_pos hpy] at hres
    simp only [if_pos hpy]
    cases hread : readFileData fs file fd with
    | error e => rw [hread] at hres; simp at hres
    | ok d =>
      rw [hread] at hres
      simp only [] at hres
      simp only [readFileData_congr hcontent, hread]
      cases hsub : (applyOnTemplates regex_result
          actions.visit_python_all_submodules_for).foldlM
            (submoduleStep cfg fs (pythonParseImports d).2) [] with
      | error e => rw [hsub] at hres; simp at hres
      | ok subRels =>
        rw [hsub] at hres
        simp only [] at hres
        obtain ⟨chsS, hfaS, hsubRels⟩ :=
          (foldlM_chunks_iff (submoduleChunk cfg fs (pythonParseImports d).2)
            (submoduleStep cfg fs (pythonParseImports d).2)
            (fun a x => by
              unfold submoduleStep submoduleChunk
              cases submoduleTarget cfg (pythonParseImports d).2 x <;> rfl)
            (applyOnTemplates regex_result actions.visit_python_all_submodules_for)
            [] subRels).mp hsub
        simp only [List.nil_append] at hsubRels
        have hsim : ∀ (x : String) (ch : List RPath),
            submoduleChunk cfg fs (pythonParseImports d).2 x = .ok ch →
            ∃ ch', submoduleChunk cfg' fs' (pythonParseImports d).2 x = .ok ch' ∧
              List.Perm ch' ch := by
          intro x ch h
          unfold submoduleChunk at h ⊢
          rw [submoduleTarget_congr hroots]
          cases ht : submoduleTarget cfg (pythonParseImports d).2 x with
          | error e => rw [ht] at h; cases h
          | ok full =>
            rw [ht] at h
            simp only [Except.ok.injEq] at h
            subst h
            exact ⟨_, rfl, globFiles_perm hfs [] _⟩
        obtain ⟨chsS', hfaS', hpermS⟩ :=
          forall₂_chunks_exists_perm _ _ hsim hfaS
        have hsub' : (applyOnTemplates regex_result
            actions.visit_python_all_submodules_for).foldlM
              (submoduleStep cfg' fs' (pythonParseImports d).2) [] =
            .ok chsS'.flatten :=
          (foldlM_chunks_iff (submoduleChunk cfg' fs' (pythonParseImports d).2)
            (submoduleStep cfg' fs' (pythonParseImports d).2)
            (fun a x => by
              unfold submoduleStep submoduleChunk
              cases submoduleTarget cfg' (pythonParseImports d).2 x <;> rfl)
            (applyOnTemplates regex_result actions.visit_python_all_submodules_for)
            [] chsS'.flatten).mpr ⟨chsS', hfaS', by simp⟩
        simp only [hsub']
        cases himp : (pythonParseImports d).1.foldlM (resolveImportsStep cfg fs)
            ([], ([] : ResolverCache)) with
        | error e => rw [himp] at hres; simp at hres
        | ok st =>
          obtain ⟨importRels, cacheI⟩ := st
          rw [himp] at hres
          simp only [Except.ok.injEq, Prod.mk.injEq] at hres
          obtain ⟨hrels, hfd', hc₀⟩ := hres
          subst hfd'
          have hstep : ∀ (st : List RPath × ResolverCache) (m : String),
              resolveImportsStep cfg' fs' st m = resolveImportsStep cfg fs st m := by
            intro st m
            unfold resolveImportsStep
            rw [show pythonResolveModule cfg' fs' m st.2 =
              pythonResolveModule cfg fs m st.2 from
              pythonResolveF_congr hroots hfs _ _ _]
          have himp' : (pythonParseImports d).1.foldlM (resolveImportsStep cfg' fs')
              ([], ([] : ResolverCache)) = .ok (importRels, cacheI) := by
            rw [foldlM_congr _ _ hstep]
            exact himp
          simp only [himp']
          refine ⟨_, cacheI, rfl, ?_⟩
          rw [← hrels]
          refine List.Perm.append (List.Perm.append ?_ ?_) (List.Perm.refl _)
          · refine List.Perm.append (List.Perm.append ?_ ?_) ?_
            · exact flatMap_perm_of_pointwise _ _
                (fun pat => globFiles_perm hfs _ _) _
            · exact flatMap_perm_of_pointwise _ _
                (fun pat => (globFiles_perm hfs _ _).map _) _
            · exact flatMap_perm_of_pointwise _ _
                (fun dd => flatMap_perm_of_pointwise _ _
                  (fun pat => (globFiles_perm hfs _ _).map _) _) _
          · rw [hsubRels]
            exact flatten_perm_of_forall₂ hpermS
  · rw [if_neg hpy] at hres
    simp only [Except.ok.injEq, Prod.mk.injEq] at hres
    obtain ⟨hrels, hfd', hc₀⟩ := hres
    subst hfd'
    simp only [if_neg hpy]
    refine ⟨_, [], rfl, ?_⟩
    rw [← hrels]
    refine List.Perm.append (List.Perm.append ?_ ?_) ?_
    · exact flatMap_perm_of_pointwise _ _
        (fun pat => globFiles_perm hfs _ _) _
    · exact flatMap_perm_of_pointwise _ _
        (fun pat => (globFiles_perm hfs _ _).map _) _
    · exact flatMap_perm_of_pointwise _ _
        (fun dd => flatMap_perm_of_pointwise _ _
          (fun pat => (globFiles_perm hfs _ _).map _) _) _

/-- When every chunk computation in a family succeeds, each member's
succeeds. -/
theorem forall₂_ok_mem {α β : Type} {g : α → Except String (List β)}
    {l : List α} {chs : List (List β)}
    (h : List.Forall₂ (fun x ch => g x = .ok ch) l chs) :
    ∀ x ∈ l, ∃ ch, g x = .ok ch := by
  induction h with
  | nil => intro x hx; cases hx
  | cons hx _ ih =>
    intro y hy
    cases hy with
    | head => exact ⟨_, hx⟩
    | tail _ hmem => exact ih y hmem

/-- The value of a succeeding chunk computation (empty on failure). -/
def chunkValue {α β : Type} (g : α → Except String (List β)) (x : α) : List β :=
  match g x with
  | .ok ch => ch
  | .error _ => []

/-- A membership-wise succeeding chunk family is the canonical map. -/
theorem forall₂_ok_map_of_mem {α β : Type} (g : α → Except String (List β)) :
    ∀ (l : List α), (∀ x ∈ l, ∃ ch, g x = .ok ch) →
      List.Forall₂ (fun x ch => g x = .ok ch) l (l.map (chunkValue g)) := by
  intro l
  induction l with
  | nil => intro _; exact List.Forall₂.nil
  | cons a l ih =>
    intro h
    obtain ⟨ch, hch⟩ := h a (List.mem_cons_self a l)
    refine List.Forall₂.cons ?_ (ih fun x hx => h x (List.mem_cons_of_mem a hx))
    simp only [chunkValue, hch]

/-- A succeeding chunk family is the canonical map. -/
theorem forall₂_eq_map_chunkValue {α β : Type} (g : α → Except String (List β)) :
    ∀ {l : List α} {chs : List (List β)},
      List.Forall₂ (fun x ch => g x = .ok ch) l chs → chs = l.map (chunkValue g) := by
  intro l chs h
  induction h with
  | nil => rfl
  | cons hx _ ih =>
    simp only [List.map_cons, ← ih, chunkValue, hx]

/-- `pureMatchChunk` cross-machine simulation. -/
theorem pureMatchChunk_congr (cfg cfg' : Config) (fs fs' : RepoFS)
    (hroots : cfg.root_python_packages = cfg'.root_python_packages)
    (hfs : FSEquiv fs fs') (ra : RuleActions) (file : RPath) (d : String)
    (mtch : List String) (ch : List RPath)
    (h : pureMatchChunk cfg fs ra file d mtch = .ok ch) :
    ∃ ch', pureMatchChunk cfg' fs' ra file d mtch = .ok ch' ∧ List.Perm ch' ch := by
  unfold pureMatchChunk at h ⊢
  cases happ : applyActions cfg fs ra file mtch (some d) [] with
  | error e => rw [happ] at h; cases h
  | ok st =>
    obtain ⟨rels, fdE, cE⟩ := st
    rw [happ] at h
    simp only [Except.ok.injEq] at h
    subst h
    obtain ⟨rels', c₀', happ', hperm⟩ :=
      applyActions_pure_congr cfg cfg' fs fs' hroots hfs ra file mtch (some d)
        rels fdE cE happ
    rw [happ']
    exact ⟨rels', rfl, hperm⟩

/-- `pureRegexChunk` cross-machine simulation. -/
theorem pureRegexChunk_congr (cfg cfg' : Config) (fs fs' : RepoFS)
    (hroots : cfg.root_python_packages = cfg'.root_python_packages)
    (hfs : FSEquiv fs fs') (file : RPath) (rr : String × RuleActions)
    (ch : List RPath) (h : pureRegexChunk cfg fs file rr = .ok ch) :
    ∃ ch', pureRegexChunk cfg' fs' file rr = .ok ch' ∧ List.Perm ch' ch := by
  unfold pureRegexChunk at h ⊢
  by_cases hexc : checkExcludePatterns rr.2.exclude file = true
  · rw [if_pos hexc] at h ⊢
    simp only [Except.ok.injEq] at h
    exact ⟨ch, by rw [← h], h ▸ List.Perm.refl _⟩
  · rw [if_neg hexc] at h ⊢
    cases hcontent : fs.content file with
    | none => rw [hcontent] at h; cases h
    | some d =>
      rw [hcontent] at h
      simp only [] at h
      have hcontent' : fs'.content file = some d := by
        rw [← hfs.2.2.1]; exact hcontent
      rw [hcontent']
      simp only []
      obtain ⟨chsm, hfam, hch⟩ :=
        (foldlM_chunks_iff (pureMatchChunk cfg fs rr.2 file d)
          (matchChunkStep cfg fs rr.2 file d)
          (fun a x => by
            unfold matchChunkStep
            cases pureMatchChunk cfg fs rr.2 file d x <;> rfl)
          (fs.regexFindAll rr.1 d) [] ch).mp h
      simp only [List.nil_append] at hch
      obtain ⟨chsm', hfam', hpermm⟩ :=
        forall₂_chunks_exists_perm _ _
          (fun mtch c0 hc =>
            pureMatchChunk_congr cfg cfg' fs fs' hroots hfs rr.2 file d mtch c0 hc)
          hfam
      have hmatches : fs'.regexFindAll rr.1 d = fs.regexFindAll rr.1 d := by
        rw [hfs.2.2.2]
      rw [hmatches]
      refine ⟨chsm'.flatten, ?_, ?_⟩
      · exact (foldlM_chunks_iff (pureMatchChunk cfg' fs' rr.2 file d)
          (matchChunkStep cfg' fs' rr.2 file d)
          (fun a x => by
            unfold matchChunkStep
            cases pureMatchChunk cfg' fs' rr.2 file d x <;> rfl)
          (fs.regexFindAll rr.1 d) [] chsm'.flatten).mpr ⟨chsm', hfam', by simp⟩
      · rw [hch]
        exact flatten_perm_of_forall₂ hpermm

/-- `purePathChunk` cross-machine simulation, along a reordering of the
rule's regex sub-rules. -/
theorem purePathChunk_congr (cfg cfg' : Config) (fs fs' : RepoFS)
    (hroots : cfg.root_python_packages = cfg'.root_python_packages)
    (hfs : FSEquiv fs fs') (file : RPath) (pr pr' : String × PathRule)
    (hrule : RuleEquiv pr pr') (ch : List RPath)
    (h : purePathChunk cfg fs file pr = .ok ch) :
    ∃ ch', purePathChunk cfg' fs' file pr' = .ok ch' ∧ List.Perm ch' ch := by
  obtain ⟨hpat, hact, hperm⟩ := hrule
  unfold purePathChunk at h ⊢
  rw [← hpat, ← hact]
  by_cases hg : globMatch pr.1 file = true
  · rw [if_pos hg] at h ⊢
    cases happ : applyActions cfg fs pr.2.actions file [] none [] with
    | error e => rw [happ] at h; cases h
    | ok st =>
      obtain ⟨rels, fdE, cE⟩ := st
      rw [happ] at h
      simp only [] at h
      cases hrf : pr.2.regex_rules.foldlM (regexChunkStep cfg fs file) [] with
      | error e => rw [hrf] at h; cases h
      | ok rch =>
        rw [hrf] at h
        simp only [Except.ok.injEq] at h
        obtain ⟨chsR, hfaR, hrch⟩ :=
          (foldlM_chunks_iff (pureRegexChunk cfg fs file)
            (regexChunkStep cfg fs file)
            (fun a x => by
              unfold regexChunkStep
              cases pureRegexChunk cfg fs file x <;> rfl)
            pr.2.regex_rules [] rch).mp hrf
        simp only [List.nil_append] at hrch
        have hmemOk : ∀ rr ∈ pr'.2.regex_rules,
            ∃ c0, pureRegexChunk cfg fs file rr = .ok c0 := by
          intro rr hm
          exact forall₂_ok_mem hfaR rr (hperm.mem_iff.mpr hm)
        have hfaMid := forall₂_ok_map_of_mem (pureRegexChunk cfg fs file)
          pr'.2.regex_rules hmemOk
        have hEqMapA := forall₂_eq_map_chunkValue (pureRegexChunk cfg fs file) hfaR
        have hflatMid : List.Perm
            (pr'.2.regex_rules.map (chunkValue (pureRegexChunk cfg fs file))).flatten
            chsR.flatten := by
          rw [hEqMapA]
          exact ((hperm.map _).symm).flatten
        obtain ⟨chsB, hfaB, hpermB⟩ :=
          forall₂_chunks_exists_perm _ _
            (fun rr c0 hc =>
              pureRegexChunk_congr cfg cfg' fs fs' hroots hfs file rr c0 hc)
            hfaMid
        obtain ⟨rels', c₀', happ', hpermRels⟩ :=
          applyActions_pure_congr cfg cfg' fs fs' hroots hfs pr.2.actions file []
            none rels fdE cE happ
        rw [happ']
        simp only []
        rw [(foldlM_chunks_iff (pureRegexChunk cfg' fs' file)
          (regexChunkStep cfg' fs' file)
          (fun a x => by
            unfold regexChunkStep
            cases pureRegexChunk cfg' fs' file x <;> rfl)
          pr'.2.regex_rules [] chsB.flatten).mpr ⟨chsB, hfaB, by simp⟩]
        refine ⟨rels' ++ chsB.flatten, rfl, ?_⟩
        rw [← h, hrch]
        exact hpermRels.append
          ((flatten_perm_of_forall₂ hpermB).trans hflatMid)
  · rw [if_neg hg] at h ⊢
    simp only [Except.ok.injEq] at h
    exact ⟨ch, by rw [← h], h ▸ List.Perm.refl _⟩

/-- Transport an all-chunks-succeed family along an elementwise
simulation between two related rule lists. -/
theorem forall₂_chunks_transport {α γ β : Type} (R : α → γ → Prop)
    (g : α → Except String (List β)) (g' : γ → Except String (List β))
    (hsim : ∀ a c ch, R a c → g a = .ok ch →
      ∃ ch', g' c = .ok ch' ∧ List.Perm ch' ch) :
    ∀ {l : List α} {l' : List γ} {chs : List (List β)},
      List.Forall₂ R l l' →
      List.Forall₂ (fun x ch => g x = .ok ch) l chs →
      ∃ chs', List.Forall₂ (fun x ch => g' x = .ok ch) l' chs' ∧
        List.Forall₂ (fun a b => List.Perm a b) chs' chs := by
  intro l l' chs hR
  induction hR generalizing chs with
  | nil =>
    intro h
    cases h
    exact ⟨[], List.Forall₂.nil, List.Forall₂.nil⟩
  | cons hr _ ih =>
    intro h
    cases h with
    | cons hx hrest =>
      obtain ⟨chs', hfa', hperm⟩ := ih hrest
      obtain ⟨ch', hch', hp⟩ := hsim _ _ _ hr hx
      exact ⟨ch' :: chs', List.Forall₂.cons hch' hfa', List.Forall₂.cons hp hperm⟩

/-- `visitFile` coupling: two machines presenting the same tree and
configuration, each run from its own consistent cache, produce
permuted relation lists (and keep their caches consistent). -/
theorem visitFile_coupled (cfg cfg' : Config) (fs fs' : RepoFS)
    (hcfg : ConfigEquiv cfg cfg') (hfs : FSEquiv fs fs') (file : RPath)
    (c₁ c₂ : ResolverCache)
    (hcc₁ : CacheConsistent cfg fs c₁) (hcc₂ : CacheConsistent cfg' fs' c₂)
    (rels : List RPath) (c₁' : ResolverCache)
    (h : visitFile cfg fs file c₁ = .ok (rels, c₁')) :
    CacheConsistent cfg fs c₁' ∧
    ∃ rels' c₂', visitFile cfg' fs' file c₂ = .ok (rels', c₂') ∧
      List.Perm rels' rels ∧ CacheConsistent cfg' fs' c₂' := by
  obtain ⟨hin, hdeps, hexc, hroots, mid, hpermPR, hfaPR⟩ := hcfg
  unfold visitFile at h ⊢
  rw [← hexc]
  by_cases hge : checkExcludePatterns cfg.global_exclude file = true
  · rw [if_pos hge] at h ⊢
    simp only [Except.ok.injEq, Prod.mk.injEq] at h
    obtain ⟨hrels, hc⟩ := h
    subst hrels
    exact ⟨hc ▸ hcc₁, [], c₂, rfl, List.Perm.refl _, hcc₂⟩
  · rw [if_neg hge] at h ⊢
    obtain ⟨chs, hfa, hrels, hcc₁'⟩ :=
      (visitPathRules_pure_spec cfg fs file cfg.path_rules c₁ [] hcc₁).1
        rels c₁' h
    simp only [List.nil_append] at hrels
    have hmemOk : ∀ pr ∈ mid, ∃ ch, purePathChunk cfg fs file pr = .ok ch := by
      intro pr hm
      exact forall₂_ok_mem hfa pr (hpermPR.mem_iff.mpr hm)
    have hfaMid := forall₂_ok_map_of_mem (purePathChunk cfg fs file) mid hmemOk
    have hEqMapA := forall₂_eq_map_chunkValue (purePathChunk cfg fs file) hfa
    have hflatMid : List.Perm
        (mid.map (chunkValue (purePathChunk cfg fs file))).flatten chs.flatten := by
      rw [hEqMapA]
      exact ((hpermPR.map _).symm).flatten
    obtain ⟨chsB, hfaB, hpermB⟩ :=
      forall₂_chunks_transport RuleEquiv _ _
        (fun a c ch hr hc =>
          purePathChunk_congr cfg cfg' fs fs' hroots hfs file a c hr ch hc)
        hfaPR hfaMid
    obtain ⟨c₂', hrun, hcc₂'⟩ :=
      (visitPathRules_pure_spec cfg' fs' file cfg'.path_rules c₂ [] hcc₂).2
        chsB hfaB
    refine ⟨hcc₁', chsB.flatten, c₂', ?_, ?_, hcc₂'⟩
    · rw [hrun]
      simp
    · rw [hrels]
      exact (flatten_perm_of_forall₂ hpermB).trans hflatMid

/-- `visitWave` coupling: the two machines visit the same frontier in
lockstep, storing identical relation-map entries (the per-file
relation lists agree after sort-and-dedup) and identical
next-frontier accumulators. -/
theorem visitWave_coupled (cfg cfg' : Config) (fs fs' : RepoFS)
    (hcfg : ConfigEquiv cfg cfg') (hfs : FSEquiv fs fs') :
    ∀ (frontier visited : List String) (relMap : List (String × List String))
      (related : List String) (c₁ c₂ : ResolverCache),
      CacheConsistent cfg fs c₁ → CacheConsistent cfg' fs' c₂ →
      ∀ v rm rel c₁',
        visitWave cfg fs frontier visited relMap related c₁ = .ok (v, rm, rel, c₁') →
        CacheConsistent cfg fs c₁' ∧
        ∃ c₂', visitWave cfg' fs' frontier visited relMap related c₂ =
          .ok (v, rm, rel, c₂') ∧ CacheConsistent cfg' fs' c₂' := by
  intro frontier
  induction frontier with
  | nil =>
    intro visited relMap related c₁ c₂ hcc₁ hcc₂ v rm rel c₁' h
    cases h
    exact ⟨hcc₁, c₂, rfl, hcc₂⟩
  | cons f rest ih =>
    intro visited relMap related c₁ c₂ hcc₁ hcc₂ v rm rel c₁' h
    rw [show visitWave cfg fs (f :: rest) visited relMap related c₁ =
      (if visited.contains f then
        visitWave cfg fs rest visited relMap related c₁
      else
        match visitFile cfg fs (strSplitOn '/' f) c₁ with
        | .error e => .error e
        | .ok (rels, cache') =>
          visitWave cfg fs rest (f :: visited)
            (relMap ++ [(f, sortDedup (cfg.global_deps ++ rels.map RPath.render))])
            (related ++ sortDedup (cfg.global_deps ++ rels.map RPath.render))
            cache') from rfl] at h
    rw [show visitWave cfg' fs' (f :: rest) visited relMap related c₂ =
      (if visited.contains f then
        visitWave cfg' fs' rest visited relMap related c₂
      else
        match visitFile cfg' fs' (strSplitOn '/' f) c₂ with
        | .error e => .error e
        | .ok (rels, cache') =>
          visitWave cfg' fs' rest (f :: visited)
            (relMap ++ [(f, sortDedup (cfg'.global_deps ++ rels.map RPath.render))])
            (related ++ sortDedup (cfg'.global_deps ++ rels.map RPath.render))
            cache') from rfl]
    by_cases hv : visited.contains f = true
    · rw [if_pos hv] at h
      rw [if_pos hv]
      exact ih visited relMap related c₁ c₂ hcc₁ hcc₂ v rm rel c₁' h
    · rw [if_neg hv] at h
      rw [if_neg hv]
      cases hvf : visitFile cfg fs (strSplitOn '/' f) c₁ with
      | error e => rw [hvf] at h; simp at h
      | ok st =>
        obtain ⟨relsA, c₁₁⟩ := st
        rw [hvf] at h
        simp only [] at h
        obtain ⟨hcc₁₁, relsB, c₂₁, hvf', hperm, hcc₂₁⟩ :=
          visitFile_coupled cfg cfg' fs fs' hcfg hfs (strSplitOn '/' f) c₁ c₂
            hcc₁ hcc₂ relsA c₁₁ hvf
        rw [hvf']
        simp only []
        have hstored : sortDedup (cfg'.global_deps ++ relsB.map RPath.render) =
            sortDedup (cfg.global_deps ++ relsA.map RPath.render) := by
          rw [← hcfg.2.1]
          exact sortDedup_eq_of_perm
            ((List.Perm.refl cfg.global_deps).append (hperm.map RPath.render))
        rw [hstored]
        exact ih (f :: visited)
          (relMap ++ [(f, sortDedup (cfg.global_deps ++ relsA.map RPath.render))])
          (related ++ sortDedup (cfg.global_deps ++ relsA.map RPath.render))
          c₁₁ c₂₁ hcc₁₁ hcc₂₁ v rm rel c₁' h

/-- The wave loop coupling: the two machines produce exactly the same
relation map (the same result altogether) from any pair of consistent
caches. -/
theorem VisitRecursivelyF_coupled (cfg cfg' : Config) (fs fs' : RepoFS)
    (hcfg : ConfigEquiv cfg cfg') (hfs : FSEquiv fs fs') :
    ∀ (fuel : Nat) (frontier visited : List String)
      (relMap : List (String × List String)) (c₁ c₂ : ResolverCache),
      CacheConsistent cfg fs c₁ → CacheConsistent cfg' fs' c₂ →
      ∀ res, VisitRecursivelyF cfg fs fuel frontier visited relMap c₁ = some (.ok res) →
        VisitRecursivelyF cfg' fs' fuel frontier visited relMap c₂ = some (.ok res) := by
  intro fuel
  induction fuel with
  | zero =>
    intro frontier visited relMap c₁ c₂ _ _ res h
    cases h
  | succ n ih =>
    intro frontier visited relMap c₁ c₂ hcc₁ hcc₂ res h
    rw [show VisitRecursivelyF cfg fs (n + 1) frontier visited relMap c₁ =
      (match visitWave cfg fs frontier visited relMap [] c₁ with
       | .error e => some (.error e)
       | .ok (visited', relMap', related, cache') =>
         if related.isEmpty then some (.ok relMap')
         else VisitRecursivelyF cfg fs n (sortDedup related) visited' relMap' cache')
      from rfl] at h
    rw [show VisitRecursivelyF cfg' fs' (n + 1) frontier visited relMap c₂ =
      (match visitWave cfg' fs' frontier visited relMap [] c₂ with
       | .error e => some (.error e)
       | .ok (visited', relMap', related, cache') =>
         if related.isEmpty then some (.ok relMap')
         else VisitRecursivelyF cfg' fs' n (sortDedup related) visited' relMap' cache')
      from rfl]
    cases hw : visitWave cfg fs frontier visited relMap [] c₁ with
    | error e => rw [hw] at h; simp at h
    | ok st =>
      obtain ⟨visited', relMap', related, c₁'⟩ := st
      rw [hw] at h
      simp only [] at h
      obtain ⟨hcc₁', c₂', hw', hcc₂'⟩ :=
        visitWave_coupled cfg cfg' fs fs' hcfg hfs frontier visited relMap [] c₁ c₂
          hcc₁ hcc₂ visited' relMap' related c₁' hw
      rw [hw']
      simp only []
      by_cases hrel : related.isEmpty = true
      · rw [if_pos hrel] at h
        rw [if_pos hrel]
        exact h
      · rw [if_neg hrel] at h
        rw [if_neg hrel]
        exact ih (sortDedup related) visited' relMap' c₁' c₂' hcc₁' hcc₂' res h

/-- Input collection is enumeration-order independent: the final
sort-and-dedup cancels the permutation. -/
theorem collectInputFiles_congr {cfg cfg' : Config} {fs fs' : RepoFS}
    (hin : cfg.inputs = cfg'.inputs) (hfs : FSEquiv fs fs') :
    collectInputFiles cfg' fs' = collectInputFiles cfg fs := by
  unfold collectInputFiles
  rw [← hin]
  refine sortDedup_eq_of_perm (List.Perm.map _ ?_)
  refine flatMap_perm_of_pointwise _ _ (fun pat => ?_) cfg.inputs
  unfold globAllEntries
  exact ((hfs.1.symm).append hfs.2.1.symm).filterMap _

/-- The per-input-file dependency digests over a finished relation map
(`-out-dep-hashes`): keyed by input file, values as in `main.go`'s
hash pipeline over the sorted dependency closure. -/
def depHashOutputs (input_files : List String) (relMap : List (String × List String))
    (sha : List Nat → List Nat) (hash_salt : String) (config_hash : List Nat)
    (fileHashes : String → List Nat) : List (String × String) :=
  input_files.map fun f =>
    (f, depHashHex sha hash_salt config_hash f (BuildFullDepList relMap f) fileHashes)

/-- The observable pipeline of a run: collect the input files, build
the relation map, then compute every input file's dependency digest. -/
def pipelineOutputs (cfg : Config) (fs : RepoFS) (fuel : Nat)
    (sha : List Nat → List Nat) (hash_salt : String) (config_hash : List Nat)
    (fileHashes : String → List Nat) :
    Option (Except String (List (String × List String) × List (String × String))) :=
  match VisitRecursivelyF cfg fs fuel (collectInputFiles cfg fs) [] [] [] with
  | none => none
  | some (.error e) => some (.error e)
  | some (.ok relMap) =>
    some (.ok (relMap,
      depHashOutputs (collectInputFiles cfg fs) relMap sha hash_salt config_hash
        fileHashes))

/-- C7: Determinism — for a fixed file tree and configuration, the
produced relation map and all final digests are identical across runs,
independent of filesystem directory-enumeration order and of the
iteration order over path rules and regex rules (concurrent completion
order does not enter the per-file digest computation at all): a run
over any reordered presentation of the same tree and configuration
produces byte-identical relation-map and digest outputs, because every
stored intermediate sequence is sorted and de-duplicated before use. -/
theorem graph_and_digests_deterministic (cfg cfg' : Config) (fs fs' : RepoFS)
    (hcfg : ConfigEquiv cfg cfg') (hfs : FSEquiv fs fs')
    (fuel : Nat) (sha : List Nat → List Nat) (hash_salt : String)
    (config_hash : List Nat) (fileHashes : String → List Nat)
    (out : List (String × List String) × List (String × String))
    (h : pipelineOutputs cfg fs fuel sha hash_salt config_hash fileHashes =
      some (.ok out)) :
    pipelineOutputs cfg' fs' fuel sha hash_salt config_hash fileHashes =
      some (.ok out) := by
  unfold pipelineOutputs at h ⊢
  have hinputs : collectInputFiles cfg' fs' = collectInputFiles cfg fs :=
    collectInputFiles_congr hcfg.1 hfs
  rw [hinputs]
  cases hrun : VisitRecursivelyF cfg fs fuel (collectInputFiles cfg fs) [] [] [] with
  | none => rw [hrun] at h; cases h
  | some r =>
    cases r with
    | error e => rw [hrun] at h; simp at h
    | ok relMap =>
      rw [hrun] at h
      have hrun' := VisitRecursivelyF_coupled cfg cfg' fs fs' hcfg hfs fuel
        (collectInputFiles cfg fs) [] [] [] []
        (cacheConsistent_nil cfg fs) (cacheConsistent_nil cfg' fs') relMap hrun
      rw [hrun']
      exact h

/-- The scenario configuration with its two path rules presented in the
opposite iteration order. -/
def cfgScenarioP : Config :=
  ⟨["tests/**/test_*.py"], ["poetry.lock"], [], ["pkg"],
   [("**/*.py", genericPyRule), ("tests/**/test_*.py", testFileRule)]⟩

/-- The scenario tree with its directory enumeration reversed. -/
def fsScenarioP : RepoFS :=
  ⟨[["poetry.lock"], ["conftest.py"], ["pkg", "__init__.py"], ["pkg", "db.py"],
    ["tests", "test_foo.py"]],
   [["pkg"], ["tests"]],
   fun p => if p = ["tests", "test_foo.py"] then some "import pkg.db\n" else some "",
   fun _ _ => []⟩

/-- Witness: the scenario run and a run with reversed directory
enumeration and reordered path rules produce the identical relation map
and digest list. -/
theorem graph_and_digests_deterministic_witness :
    (ConfigEquiv cfgScenario cfgScenarioP ∧ FSEquiv fsScenario fsScenarioP ∧
      pipelineOutputs cfgScenario fsScenario 5 (fun _ => []) "" [] (fun _ => []) =
        some (.ok (scenarioRelMap, [("tests/test_foo.py", "")]))) ∧
    pipelineOutputs cfgScenarioP fsScenarioP 5 (fun _ => []) "" [] (fun _ => []) =
      some (.ok (scenarioRelMap, [("tests/test_foo.py", "")])) :=
  ⟨⟨⟨rfl, rfl, rfl, rfl, cfgScenarioP.path_rules, by decide,
      List.Forall₂.cons ⟨rfl, rfl, List.Perm.refl _⟩
        (List.Forall₂.cons ⟨rfl, rfl, List.Perm.refl _⟩ List.Forall₂.nil)⟩,
    ⟨by decide, by decide, rfl, rfl⟩, by decide⟩,
   graph_and_digests_deterministic cfgScenario cfgScenarioP fsScenario fsScenarioP
     ⟨rfl, rfl, rfl, rfl, cfgScenarioP.path_rules, by decide,
      List.Forall₂.cons ⟨rfl, rfl, List.Perm.refl _⟩
        (List.Forall₂.cons ⟨rfl, rfl, List.Perm.refl _⟩ List.Forall₂.nil)⟩
     ⟨by decide, by decide, rfl, rfl⟩ 5 (fun _ => []) "" [] (fun _ => [])
     (scenarioRelMap, [("tests/test_foo.py", "")]) (by decide)⟩
